import Mathlib

/-!
Verification of the pegasus/scCloud diffusion-map and clustering core.

This file gives a shallow embedding, over `ℚ`, of the functions in
`scCloud/tools/diffusion_map.py` and `pegasus/tools/clustering.py`, and proves
the spec claims about them.  External library routines (numpy's `sqrt` and
random generator, scipy's `eigsh`, sklearn's `randomized_svd` / `KMeans`, and
the louvain/leiden optimizers) are abstracted as oracle parameters; the code of
this repository is translated literally.
-/

namespace Pegasus

/-- Sparse matrix in COO form: a shape `n` (the matrix is `n × n`) together
with a list of `(row, col, value)` entries, mirroring `scipy.sparse`. -/
structure SparseMat where
  n : ℕ
  entries : List (ℕ × ℕ × ℚ)
deriving DecidableEq, Repr

namespace SparseMat

/-- Entry `(i, j)` of a sparse matrix: the sum of all stored values at that
position (scipy sums duplicate COO entries on conversion). -/
def entry (W : SparseMat) (i j : ℕ) : ℚ :=
  ((W.entries.filter (fun e => e.1 == i && e.2.1 == j)).map (fun e => e.2.2)).sum

/-- Row sum, as computed by `W.sum(axis=1)`. -/
def rowSum (W : SparseMat) (i : ℕ) : ℚ :=
  ((W.entries.filter (fun e => e.1 == i)).map (fun e => e.2.2)).sum

/-- The sparsity pattern: the list of `(row, col)` index pairs of the stored
entries, in storage order. -/
def pattern (W : SparseMat) : List (ℕ × ℕ) :=
  W.entries.map (fun e => (e.1, e.2.1))

/-- `True` iff the sparse structure stores an entry at `(i, j)`; this is the
edge relation `scipy.sparse.csgraph` uses on a sparse input. -/
def hasEntry (W : SparseMat) (i j : ℕ) : Bool :=
  W.entries.any (fun e => e.1 == i && e.2.1 == j)

/-- `s`-step reachability in the directed graph of stored entries:
`reachN W s i j` iff there is a path from `i` to `j` of length at most `s`
through intermediate vertices `< W.n`. -/
def reachN (W : SparseMat) : ℕ → ℕ → ℕ → Bool
  | 0, i, j => i == j
  | s + 1, i, j =>
      reachN W s i j ||
        (List.range W.n).any (fun m => reachN W s i m && W.hasEntry m j)

/-- Reachability: paths in an `n`-vertex graph need at most `n` steps. -/
def reachable (W : SparseMat) (i j : ℕ) : Bool :=
  reachN W W.n i j

/-- Mutual reachability, i.e. `i` and `j` lie in the same strongly connected
component. -/
def mutualReach (W : SparseMat) (i j : ℕ) : Bool :=
  reachable W i j && reachable W j i

/-- `i` is the least vertex of its strongly connected component. -/
def isSccRepr (W : SparseMat) (i : ℕ) : Bool :=
  (List.range i).all (fun j => !mutualReach W i j)

/-- Number of strongly connected components of the directed graph of `W`,
as computed by `scipy.sparse.csgraph.connected_components(W, directed=True,
connection="strong")`: the number of least-vertex representatives. -/
def sccCount (W : SparseMat) : ℕ :=
  ((List.range W.n).filter (isSccRepr W)).length

end SparseMat

/-- Embedding of `calculate_normalized_affinity`.  `sqrt` abstracts `np.sqrt`.
Following the source: `diag` is the vector of row sums, `diag_half` its
elementwise square root, and each stored value of the COO copy of `W` is
divided first by `diag_half[row]` and then by `diag_half[col]`. -/
def calculate_normalized_affinity (sqrt : ℚ → ℚ) (W : SparseMat) :
    SparseMat × List ℚ × List ℚ :=
  let diag := (List.range W.n).map W.rowSum
  let diag_half := diag.map sqrt
  let W_norm : SparseMat :=
    { n := W.n
      entries := W.entries.map
        (fun e => (e.1, e.2.1, e.2.2 / diag_half.getD e.1 0 / diag_half.getD e.2.1 0)) }
  (W_norm, diag, diag_half)

/-- Output shape of sklearn's `randomized_svd`: factors `U`, `S`, `VT`. -/
structure SvdOut where
  U : List (List ℚ)
  S : List ℚ
  VT : List (List ℚ)

/-- Oracle for `sklearn.utils.extmath.randomized_svd(W_norm, n_components,
random_state)`. -/
def SvdOracle := SparseMat → ℕ → ℤ → SvdOut

/-- Oracle for `np.random.uniform(low, high, size)` right after
`np.random.seed(seed)`: arguments are seed, low, high, size. -/
def RngOracle := ℤ → ℚ → ℚ → ℕ → List ℚ

/-- Oracle for `scipy.sparse.linalg.eigsh(W_norm, k, v0)` (with the default
`which="LM"`, i.e. the `k` largest-magnitude eigenpairs): returns the
eigenvalue vector and the matrix of eigenvectors, as rows of length `k`. -/
def EigshOracle := SparseMat → ℕ → List ℚ → List ℚ × List (List ℚ)

/-- `np.sign`. -/
def qsign (x : ℚ) : ℚ :=
  if 0 < x then 1 else if x < 0 then -1 else 0

/-- Elementwise product of two row-major matrices (`numpy`'s `*`). -/
def elemMul (A B : List (List ℚ)) : List (List ℚ) :=
  List.zipWith (fun r s => List.zipWith (· * ·) r s) A B

/-- `numpy`'s `.transpose()` on a rectangular row-major matrix: column `i` of
the input becomes row `i` of the output. -/
def npTranspose (m : List (List ℚ)) : List (List ℚ) :=
  (List.range (m.headD []).length).map (fun i => m.map (fun row => row.getD i 0))

/-- Column sums of a row-major matrix (`numpy`'s `.sum(axis=0)`). -/
def colSums : List (List ℚ) → List ℚ
  | [] => []
  | r :: rs => rs.foldl (fun acc row => List.zipWith (· + ·) acc row) r

/-- Embedding of `calculate_diffusion_map`.  The eigendecomposition back ends
are the oracles `svd`, `rng`, `eigsh`; `sqrt` abstracts `np.sqrt`.  Python
`assert` failures are modelled as `Except.error`. -/
def calculate_diffusion_map (sqrt : ℚ → ℚ) (svd : SvdOracle) (rng : RngOracle)
    (eigsh : EigshOracle) (W : SparseMat) (n_components : ℕ) (alpha : ℚ)
    (solver : String) (random_state : ℤ) :
    Except String (List (List ℚ) × List ℚ) := do
  let nc := W.sccCount
  if nc ≠ 1 then throw "assert nc == 1" else
  let cna := calculate_normalized_affinity sqrt W
  let W_norm := cna.1
  let diag_half := cna.2.2
  let LU ← (if solver = "randomized" then
      let o := svd W_norm n_components random_state
      let signs := (colSums (elemMul o.U (npTranspose o.VT))).map qsign
      pure (List.zipWith (· * ·) signs o.S, o.U)
    else if solver = "eigsh" then
      let v0 := rng random_state (-1) 1 W_norm.n
      let p := eigsh W_norm n_components v0
      pure (p.1.reverse, p.2.map List.reverse)
    else throw "assert solver == eigsh" :
    Except String (List ℚ × List (List ℚ)))
  let Lambda := LU.1.drop 1
  let U := LU.2.map (List.drop 1)
  let Phi := (U.zip diag_half).map (fun p => p.1.map (· / p.2))
  let Lambda_new := Lambda.map (fun l => l / (1 - alpha * l))
  let Phi_pt := Phi.map (fun row => List.zipWith (· * ·) row Lambda_new)
  return (Phi_pt, Lambda)

/-! ### The annotated-data container -/

/-- A pandas `Categorical`: the values together with the fixed category list
(whose order is the category order of the stored column). -/
structure PdCategorical where
  values : List String
  categories : List String
deriving DecidableEq, Repr

/-- A per-cell (`obs`) column: either a categorical label column or a numeric
column. -/
inductive ObsCol where
  | cat : PdCategorical → ObsCol
  | num : List ℚ → ObsCol
deriving DecidableEq, Repr

/-- A value of an unstructured-annotation (`uns`) slot. -/
inductive UnsVal where
  | mat : SparseMat → UnsVal
  | strs : List String → UnsVal
  | vec : List ℚ → UnsVal
deriving DecidableEq, Repr

/-- The `AnnData` container, restricted to the slots this core touches. -/
structure AnnData where
  obs_names : List String
  obs : List (String × ObsCol)
  obsm : List (String × List (List ℚ))
  uns : List (String × UnsVal)
deriving DecidableEq

/-- Key lookup in an association list (a Python dict access). -/
def lookupA {α : Type} (l : List (String × α)) (k : String) : Option α :=
  match l with
  | [] => none
  | (k', v) :: t => if k' = k then some v else lookupA t k

/-- Key update in an association list (a Python dict assignment). -/
def updateAssoc {α : Type} (l : List (String × α)) (k : String) (v : α) :
    List (String × α) :=
  match l with
  | [] => [(k, v)]
  | (k', v') :: t => if k' = k then (k, v) :: t else (k', v') :: updateAssoc t k v

/-! ### Pseudotime -/

/-- `sklearn.metrics.pairwise.euclidean_distances` between two rows. -/
def euclid (sqrt : ℚ → ℚ) (x y : List ℚ) : ℚ :=
  sqrt (((x.zip y).map (fun p => (p.1 - p.2) ^ 2)).sum)

/-- `np.min` of a non-empty vector (`0` on the empty vector, where numpy
raises). -/
def listMin : List ℚ → ℚ
  | [] => 0
  | x :: xs => xs.foldl min x

/-- `np.max` of a non-empty vector (`0` on the empty vector, where numpy
raises). -/
def listMax : List ℚ → ℚ
  | [] => 0
  | x :: xs => xs.foldl max x

/-- Embedding of `calc_pseudotime`.  The `roots` list is stored under
`uns["roots"]` unvalidated; `mask` is `np.isin(data.obs_names, roots)`;
`distances[j]` is the mean euclidean distance from cell `j` to the masked
rows; the written column is the min-max normalization of `distances`. -/
def calc_pseudotime (sqrt : ℚ → ℚ) (data : AnnData) (roots : List String) :
    Except String AnnData :=
  match lookupA data.obsm "X_diffmap" with
  | none => .error "Please run diffmap first!"
  | some X =>
    let data1 := { data with uns := updateAssoc data.uns "roots" (.strs roots) }
    let mask := data1.obs_names.map (fun nm => decide (nm ∈ roots))
    let rootRows := ((X.zip mask).filter (fun p => p.2)).map Prod.fst
    let distances := X.map
      (fun xj => (rootRows.map (fun xi => euclid sqrt xi xj)).sum / (rootRows.length : ℚ))
    let dmin := listMin distances
    let dmax := listMax distances
    let ptime := distances.map (fun d => (d - dmin) / (dmax - dmin))
    .ok { data1 with obs := updateAssoc data1.obs "pseudotime" (.num ptime) }

/-! ### Label strings and natural sorting -/

/-- Value of a decimal digit character. -/
def digitVal (c : Char) : ℕ := c.toNat - 48

/-- Decimal numeral of `n`: the embedding of Python `str` on a non-negative
integer. -/
def decimalStr (n : ℕ) : String :=
  if n = 0 then "0" else ⟨(Nat.digits 10 n).reverse.map Nat.digitChar⟩

/-- Parse a decimal numeral. -/
def strToNat (s : String) : ℕ :=
  s.data.foldl (fun acc c => 10 * acc + digitVal c) 0

/-- The comparison `natsort.natsorted` uses on purely numeric strings (the
only strings this code feeds it): compare parsed integer values. -/
def natLe (a b : String) : Bool := strToNat a ≤ strToNat b

/-- Embedding of `natsort.natsorted` on lists of decimal numerals. -/
def natsorted (l : List String) : List String := l.mergeSort natLe

/-- Embedding of `np.unique` on a 1-D string array: the distinct values in
ascending lexicographic order. -/
def npUnique (l : List String) : List String :=
  (l.mergeSort (fun a b => decide (a ≤ b))).dedup

/-- The label post-processing shared by all four clustering drivers:
`labels = np.array([str(x + 1) for x in membership])`,
`categories = natsorted(np.unique(labels))`,
`pd.Categorical(values=labels, categories=categories)`. -/
def labelCategorical (membership : List ℕ) : PdCategorical :=
  let labels := membership.map (fun x => decimalStr (x + 1))
  { values := labels, categories := natsorted (npUnique labels) }

/-! ### Two-level k-means -/

/-- Oracle for `sklearn.cluster.KMeans(...).fit(X).labels_`: arguments are the
rows to fit, `n_clusters`, `n_init` and `random_state`. -/
def KmOracle := List (List ℚ) → ℕ → ℕ → ℤ → List ℕ

/-- The rows of `X` selected by the boolean mask `coarse == i`
(numpy's `X[idx, :]`). -/
def selRows (X : List (List ℚ)) (coarse : List ℕ) (i : ℕ) : List (List ℚ) :=
  ((X.zip coarse).filter (fun p => p.2 == i)).map Prod.fst

/-- Masked assignment `labels[idx] = vals` where `idx = coarse == i`: the
values `vals` are written, in order, to the positions of `labels` at which
`coarse` equals `i`. -/
def scatter : List ℕ → List ℕ → ℕ → List ℕ → List ℕ
  | [], _, _, _ => []
  | _ :: _, [], _, _ => []
  | c :: cs, l :: ls, i, vals =>
    if c = i then
      match vals with
      | [] => l :: scatter cs ls i []
      | v :: vs => v :: scatter cs ls i vs
    else l :: scatter cs ls i vals

/-- The `for i in range(n_clusters)` loop of `partition_cells_by_kmeans`:
state is the current `labels` array and the running `base_sum`. -/
def kmLoop (km : KmOracle) (X : List (List ℚ)) (coarse : List ℕ) (K2 : ℕ)
    (seed : ℤ) : List ℕ → List ℕ × ℕ → List ℕ × ℕ
  | [], st => st
  | i :: is, (labels, base) =>
    let nc := min K2 ((coarse.filter (fun c => c == i)).length)
    let fine := km (selRows X coarse i) nc 1 seed
    kmLoop km X coarse K2 seed is
      (scatter coarse labels i (fine.map (fun l => base + l)), base + nc)

/-- Embedding of `partition_cells_by_kmeans`.  The `n_jobs` argument only
feeds `effective_n_jobs` and is absorbed by the oracle. -/
def partition_cells_by_kmeans (km : KmOracle) (data : AnnData) (rep : String)
    (n_jobs : ℤ) (n_clusters n_clusters2 n_init : ℕ) (random_state : ℤ) :
    List ℕ :=
  let X := (lookupA data.obsm ("X_" ++ rep)).getD []
  let coarse := km X n_clusters n_init random_state
  (kmLoop km X coarse n_clusters2 random_state (List.range n_clusters)
    (coarse, 0)).1

/-! ### Clustering drivers -/

/-- Oracle for `construct_graph` + `louvain.RBConfigurationVertexPartition` +
`louvain.Optimiser().optimise_partition`: arguments are the affinity matrix,
the resolution and the seed; the result is `partition.membership`. -/
def LouvainOracle := SparseMat → ℚ → ℤ → List ℕ

/-- Oracle for `construct_graph` + `leidenalg.find_partition`: arguments are
the affinity matrix, the resolution, the seed and `n_iterations`. -/
def LeidenOracle := SparseMat → ℚ → ℤ → ℤ → List ℕ

/-- Oracle for the spectral drivers' optimizer phase: build the graph from the
affinity matrix, start from the given initial membership, optimize the
aggregated partition and expand back; the result is `partition.membership`. -/
def SpectralOracle := SparseMat → ℚ → ℤ → List ℕ → List ℕ

/-- Embedding of `louvain`. -/
def louvain (opt : LouvainOracle) (data : AnnData) (rep : String)
    (resolution : ℚ) (random_state : ℤ) (class_label : String) :
    Except String AnnData :=
  match lookupA data.uns ("W_" ++ rep) with
  | none => .error "Cannot find affinity matrix. Please run neighbors first!"
  | some (.mat W) =>
    let membership := opt W resolution random_state
    .ok { data with
          obs := updateAssoc data.obs class_label (.cat (labelCategorical membership)) }
  | some _ => .error "construct_graph: unsupported affinity value"

/-- Embedding of `leiden`. -/
def leiden (opt : LeidenOracle) (data : AnnData) (rep : String)
    (resolution : ℚ) (n_iter : ℤ) (random_state : ℤ) (class_label : String) :
    Except String AnnData :=
  match lookupA data.uns ("W_" ++ rep) with
  | none => .error "Cannot find affinity matrix. Please run neighbors first!"
  | some (.mat W) =>
    let membership := opt W resolution random_state n_iter
    .ok { data with
          obs := updateAssoc data.obs class_label (.cat (labelCategorical membership)) }
  | some _ => .error "construct_graph: unsupported affinity value"

/-- The body shared by `spectral_louvain` and `spectral_leiden` after the
representation checks: two-level k-means on `rk`, then the optimizer seeded
with the resulting initial membership, then the label write-back. -/
def spectralBody (opt : SpectralOracle) (km : KmOracle) (data : AnnData)
    (rep : String) (resolution : ℚ) (rk : String)
    (n_clusters n_clusters2 n_init : ℕ) (n_jobs : ℤ) (random_state : ℤ)
    (class_label : String) : Except String AnnData :=
  match lookupA data.uns ("W_" ++ rep) with
  | none => .error "Cannot find affinity matrix. Please run neighbors first!"
  | some (.mat W) =>
    let labels := partition_cells_by_kmeans km data rk n_jobs n_clusters
      n_clusters2 n_init random_state
    let membership := opt W resolution random_state labels
    .ok { data with
          obs := updateAssoc data.obs class_label (.cat (labelCategorical membership)) }
  | some _ => .error "construct_graph: unsupported affinity value"

/-- Embedding of `spectral_louvain`: if `X_<rep_kmeans>` is absent fall back
to `rep_kmeans = "pca"` and fail if that is also absent, then check the
affinity matrix and run the body. -/
def spectral_louvain (opt : SpectralOracle) (km : KmOracle) (data : AnnData)
    (rep : String) (resolution : ℚ) (rep_kmeans : String)
    (n_clusters n_clusters2 n_init : ℕ) (n_jobs : ℤ) (random_state : ℤ)
    (class_label : String) : Except String AnnData :=
  match lookupA data.obsm ("X_" ++ rep_kmeans) with
  | some _ => spectralBody opt km data rep resolution rep_kmeans n_clusters
      n_clusters2 n_init n_jobs random_state class_label
  | none =>
    match lookupA data.obsm "X_pca" with
    | none => .error "Please run pca first!"
    | some _ => spectralBody opt km data rep resolution "pca" n_clusters
        n_clusters2 n_init n_jobs random_state class_label

/-- Embedding of `spectral_leiden`; identical control flow to
`spectral_louvain` with the leiden optimizer behind the oracle. -/
def spectral_leiden (opt : SpectralOracle) (km : KmOracle) (data : AnnData)
    (rep : String) (resolution : ℚ) (rep_kmeans : String)
    (n_clusters n_clusters2 n_init : ℕ) (n_jobs : ℤ) (random_state : ℤ)
    (class_label : String) : Except String AnnData :=
  match lookupA data.obsm ("X_" ++ rep_kmeans) with
  | some _ => spectralBody opt km data rep resolution rep_kmeans n_clusters
      n_clusters2 n_init n_jobs random_state class_label
  | none =>
    match lookupA data.obsm "X_pca" with
    | none => .error "Please run pca first!"
    | some _ => spectralBody opt km data rep resolution "pca" n_clusters
        n_clusters2 n_init n_jobs random_state class_label

/-! ### Concrete square roots for witnesses -/

/-- Exact square root on `ℚ` where one exists; used only to instantiate the
`sqrt` oracle on concrete inputs whose squared distances are perfect
squares. -/
def ratSqrt (q : ℚ) : ℚ :=
  if (Nat.sqrt q.num.toNat : ℤ) ^ 2 = q.num ∧ Nat.sqrt q.den ^ 2 = q.den then
    (Nat.sqrt q.num.toNat : ℚ) / (Nat.sqrt q.den : ℚ)
  else 0

/-! ### Association-list lemmas -/

theorem lookupA_updateAssoc_self {α : Type} (l : List (String × α)) (k : String)
    (v : α) : lookupA (updateAssoc l k v) k = some v := by
  induction l with
  | nil => simp [updateAssoc, lookupA]
  | cons hd t ih =>
    obtain ⟨k', v'⟩ := hd
    by_cases hk : k' = k
    · simp [updateAssoc, hk, lookupA]
    · simp [updateAssoc, hk, lookupA, ih]

theorem lookupA_updateAssoc_ne {α : Type} (l : List (String × α)) (k k' : String)
    (v : α) (h : k' ≠ k) :
    lookupA (updateAssoc l k v) k' = lookupA l k' := by
  induction l with
  | nil => simp [updateAssoc, lookupA, Ne.symm h]
  | cons hd t ih =>
    obtain ⟨k₀, v₀⟩ := hd
    by_cases hk : k₀ = k
    · subst hk
      simp [updateAssoc, lookupA, h, Ne.symm h]
    · simp [updateAssoc, hk, lookupA, ih]

/-! ### Concrete example data -/

/-- Two disconnected triangles on 6 nodes, symmetric with unit weights. -/
def triW : SparseMat :=
  { n := 6
    entries := [(0,1,1),(1,0,1),(1,2,1),(2,1,1),(0,2,1),(2,0,1),
                (3,4,1),(4,3,1),(4,5,1),(5,4,1),(3,5,1),(5,3,1)] }

/-- The two triangles with one bridging (symmetric) edge `2 ↔ 3` added. -/
def triBridged : SparseMat :=
  { n := 6, entries := triW.entries ++ [(2,3,1),(3,2,1)] }

/-- A single triangle on 3 nodes. -/
def tri3 : SparseMat :=
  { n := 3, entries := [(0,1,1),(1,0,1),(1,2,1),(2,1,1),(0,2,1),(2,0,1)] }

/-- A trivial randomized-SVD oracle for witnesses. -/
def svd0 : SvdOracle := fun _ _ _ => ⟨[], [], []⟩

/-- A trivial random-vector oracle for witnesses. -/
def rng0 : RngOracle := fun _ _ _ n => List.replicate n 0

/-- A concrete `eigsh` oracle for witnesses: ascending eigenvalues
`i / k` and `6` constant eigenvector rows. -/
def eigsh1 : EigshOracle := fun _ k _ =>
  ((List.range k).map (fun i => (i : ℚ) / k),
   List.replicate 6 ((List.range k).map (fun i => (i : ℚ) / k)))

/-! ### C7: the affinity normalizer -/

/-- Sum of values at `(i, j)` after dividing every stored value by
`dh row` and `dh col`. -/
theorem sum_filter_map_div (l : List (ℕ × ℕ × ℚ)) (dh : ℕ → ℚ) (i j : ℕ) :
    (((l.map (fun e => (e.1, e.2.1, e.2.2 / dh e.1 / dh e.2.1))).filter
        (fun e => e.1 == i && e.2.1 == j)).map (fun e => e.2.2)).sum =
      ((l.filter (fun e => e.1 == i && e.2.1 == j)).map (fun e => e.2.2)).sum
        / dh i / dh j := by
  induction l with
  | nil => simp
  | cons e t ih =>
    obtain ⟨r, c, v⟩ := e
    by_cases hr : r = i
    · by_cases hc : c = j
      · subst hr; subst hc
        simp [List.filter_cons, ih, add_div]
      · simp [List.filter_cons, hr, hc, ih]
    · simp [List.filter_cons, hr, ih]

/-- C7: for every sparse non-negative matrix `W` with strictly positive row
sums, `calculate_normalized_affinity` returns `(W_norm, d, d_half)` where `d`
is the vector of row sums, `d_half` its elementwise image under `sqrt`, and
`W_norm` has the same shape and sparsity pattern as `W` with entry `(i, j)`
equal to `W[i][j] / (d_half[i] * d_half[j])`.  (The embedding is purely
functional, so the input `W` itself is unchanged by construction.) -/
theorem claim_C7 (sqrt : ℚ → ℚ) (W : SparseMat)
    (hpos : ∀ i < W.n, 0 < W.rowSum i) :
    (calculate_normalized_affinity sqrt W).2.1 = (List.range W.n).map W.rowSum ∧
    (calculate_normalized_affinity sqrt W).2.2 =
      ((List.range W.n).map W.rowSum).map sqrt ∧
    (calculate_normalized_affinity sqrt W).1.n = W.n ∧
    (calculate_normalized_affinity sqrt W).1.pattern = W.pattern ∧
    ∀ i j : ℕ,
      (calculate_normalized_affinity sqrt W).1.entry i j =
        W.entry i j /
          ((calculate_normalized_affinity sqrt W).2.2.getD i 0 *
            (calculate_normalized_affinity sqrt W).2.2.getD j 0) := by
  refine ⟨rfl, rfl, rfl, ?_, ?_⟩
  · simp [SparseMat.pattern, calculate_normalized_affinity, List.map_map]
  · intro i j
    show SparseMat.entry _ i j = _
    unfold SparseMat.entry
    rw [show (calculate_normalized_affinity sqrt W).1.entries =
        W.entries.map (fun e => (e.1, e.2.1,
          e.2.2 / (fun m => (((List.range W.n).map W.rowSum).map sqrt).getD m 0) e.1
            / (fun m => (((List.range W.n).map W.rowSum).map sqrt).getD m 0) e.2.1))
      from rfl]
    rw [sum_filter_map_div W.entries
      (fun m => (((List.range W.n).map W.rowSum).map sqrt).getD m 0) i j]
    rw [div_div]
    rfl

/-- Witness for C7 at the 3-node triangle: all row sums are positive and the
conclusion holds there. -/
theorem claim_C7_witness :
    (∀ i < tri3.n, 0 < tri3.rowSum i) ∧
    ((calculate_normalized_affinity ratSqrt tri3).2.1 =
        (List.range tri3.n).map tri3.rowSum ∧
      (calculate_normalized_affinity ratSqrt tri3).2.2 =
        ((List.range tri3.n).map tri3.rowSum).map ratSqrt ∧
      (calculate_normalized_affinity ratSqrt tri3).1.n = tri3.n ∧
      (calculate_normalized_affinity ratSqrt tri3).1.pattern = tri3.pattern ∧
      ∀ i j : ℕ,
        (calculate_normalized_affinity ratSqrt tri3).1.entry i j =
          tri3.entry i j /
            ((calculate_normalized_affinity ratSqrt tri3).2.2.getD i 0 *
              (calculate_normalized_affinity ratSqrt tri3).2.2.getD j 0)) := by
  have hpos : ∀ i < tri3.n, 0 < tri3.rowSum i := by
    intro i hi
    simp only [tri3] at hi
    interval_cases i <;> norm_num [tri3, SparseMat.rowSum]
  exact ⟨hpos, claim_C7 ratSqrt tri3 hpos⟩

/-! ### C2: the connectivity precondition -/

/-- C2: `calculate_diffusion_map` fails with the connectivity assertion, for
every decomposition back end (so before any decomposition is attempted),
whenever the graph of `W` has more than one strongly connected component; the
6-node two-triangle matrix has two components and raises that error; the same
matrix with one bridging edge has one component, succeeds, and returns
`n_components - 1 = 2` eigenvalues and `6` rows of `2` coordinates. -/
theorem claim_C2 :
    (∀ (sqrt : ℚ → ℚ) (svd : SvdOracle) (rng : RngOracle) (eigsh : EigshOracle)
        (W : SparseMat) (k : ℕ) (alpha : ℚ) (solver : String) (seed : ℤ),
        W.sccCount ≠ 1 →
        calculate_diffusion_map sqrt svd rng eigsh W k alpha solver seed =
          .error "assert nc == 1") ∧
    triW.sccCount = 2 ∧
    calculate_diffusion_map ratSqrt svd0 rng0 eigsh1 triW 3 (1/2) "eigsh" 0 =
      .error "assert nc == 1" ∧
    triBridged.sccCount = 1 ∧
    (calculate_diffusion_map ratSqrt svd0 rng0 eigsh1 triBridged 3 (1/2) "eigsh"
          0).map (fun p => (p.1.length, p.1.map List.length, p.2.length)) =
      .ok (6, List.replicate 6 2, 2) := by
  have h1 : ∀ (sqrt : ℚ → ℚ) (svd : SvdOracle) (rng : RngOracle)
      (eigsh : EigshOracle) (W : SparseMat) (k : ℕ) (alpha : ℚ) (solver : String)
      (seed : ℤ), W.sccCount ≠ 1 →
      calculate_diffusion_map sqrt svd rng eigsh W k alpha solver seed =
        .error "assert nc == 1" := by
    intro sqrt svd rng eigsh W k alpha solver seed h
    simp [calculate_diffusion_map, h]
    rfl
  refine ⟨h1, by decide, h1 _ _ _ _ _ _ _ _ _ (by decide), by decide, ?_⟩
  simp only [calculate_diffusion_map, calculate_normalized_affinity, eigsh1,
    rng0, triBridged, triW]
  norm_num
  rfl

/-- Witness for C2's quantified conjunct: the two-triangle matrix has two
components, so the call errors for an arbitrary solver and oracle set. -/
theorem claim_C2_witness :
    triW.sccCount ≠ 1 ∧
    calculate_diffusion_map (fun q => q) svd0 rng0 eigsh1 triW 2 0 "randomized"
      5 = .error "assert nc == 1" :=
  ⟨by decide,
   claim_C2.1 (fun q => q) svd0 rng0 eigsh1 triW 2 0 "randomized" 5 (by decide)⟩

/-! ### C10: pseudotime error handling -/

/-- C10: `calc_pseudotime` errors exactly when `obsm["X_diffmap"]` is absent;
the `roots` argument is never validated — any list (matched or not) passes the
check, is stored unconditionally under `uns["roots"]`, and the computation
proceeds to write a `pseudotime` column with one value per diffusion row. -/
theorem claim_C10 (sqrt : ℚ → ℚ) (data : AnnData) (roots : List String) :
    (lookupA data.obsm "X_diffmap" = none →
      calc_pseudotime sqrt data roots = .error "Please run diffmap first!") ∧
    ∀ X, lookupA data.obsm "X_diffmap" = some X →
      ∃ pt : AnnData,
        calc_pseudotime sqrt data roots = .ok pt ∧
        lookupA pt.uns "roots" = some (.strs roots) ∧
        ∃ v : List ℚ, lookupA pt.obs "pseudotime" = some (.num v) ∧
          v.length = X.length := by
  constructor
  · intro h
    simp [calc_pseudotime, h]
  · intro X hX
    simp only [calc_pseudotime, hX]
    exact ⟨_, rfl, lookupA_updateAssoc_self _ _ _,
      _, lookupA_updateAssoc_self _ _ _, by simp⟩

/-- Three cells with 1-dimensional diffusion coordinates `0`, `1`, `3`. -/
def dEx3 : AnnData :=
  { obs_names := ["c0", "c1", "c2"]
    obs := []
    obsm := [("X_diffmap", [[0], [1], [3]])]
    uns := [] }

/-- Witness for C10: with diffusion coordinates present and a roots list
matching no cell, the call still succeeds, stores the roots, and writes a
pseudotime value per cell. -/
theorem claim_C10_witness :
    lookupA dEx3.obsm "X_diffmap" = some [[0], [1], [3]] ∧
    ∃ pt : AnnData,
      calc_pseudotime (fun q => q) dEx3 ["zzz"] = .ok pt ∧
      lookupA pt.uns "roots" = some (.strs ["zzz"]) ∧
      ∃ v : List ℚ, lookupA pt.obs "pseudotime" = some (.num v) ∧
        v.length = ([[0], [1], [3]] : List (List ℚ)).length :=
  ⟨rfl, (claim_C10 (fun q => q) dEx3 ["zzz"]).2 [[0], [1], [3]] rfl⟩

/-! ### C6: pseudotime when every cell is a root -/

/-- The per-cell mean euclidean distance to all cells (what the masked
computation reduces to when every cell is a root). -/
def meanDistAll (sqrt : ℚ → ℚ) (X : List (List ℚ)) : List ℚ :=
  X.map (fun xj => (X.map (fun xi => euclid sqrt xi xj)).sum / (X.length : ℚ))

/-- Min-max normalization of a vector. -/
def minmaxNormalize (l : List ℚ) : List ℚ :=
  l.map (fun d => (d - listMin l) / (listMax l - listMin l))

/-- A square-root oracle agreeing with the real square root at the squared
distances `0`, `1`, `4`, `9` occurring in the concrete pseudotime examples. -/
def sqrtC6 : ℚ → ℚ := fun q =>
  if q = 1 then 1 else if q = 4 then 2 else if q = 9 then 3 else 0

/-- Filtering a list by an all-true mask of the same length keeps it whole. -/
theorem filter_zip_all_true {α : Type} (X : List α) (bs : List Bool)
    (hlen : X.length = bs.length) (hall : ∀ b ∈ bs, b = true) :
    ((X.zip bs).filter (fun p => p.2)).map Prod.fst = X := by
  induction X generalizing bs with
  | nil => simp
  | cons x xs ih =>
    cases bs with
    | nil => simp at hlen
    | cons b bt =>
      have hb : b = true := hall b (by simp)
      subst hb
      simp only [List.zip_cons_cons, List.filter_cons]
      simp only [List.length_cons, Nat.add_right_cancel_iff] at hlen
      simp [ih bt hlen (fun b hbm => hall b (by simp [hbm]))]

/-- C6 counterexample: with cells at 1-D diffusion coordinates `0`, `1`, `3`
and every cell listed as a root, `calc_pseudotime` writes the pseudotimes
`[1/2, 0, 1]` — not `0.0` for every cell (the first cell gets `1/2`). -/
theorem claim_C6_counterexample :
    calc_pseudotime sqrtC6 dEx3 ["c0", "c1", "c2"] =
      .ok { obs_names := ["c0", "c1", "c2"]
            obs := [("pseudotime", .num [1/2, 0, 1])]
            obsm := [("X_diffmap", [[0], [1], [3]])]
            uns := [("roots", .strs ["c0", "c1", "c2"])] } ∧
    ((1 : ℚ)/2 ≠ 0 ∧ (1 : ℚ) ≠ 0) := by
  constructor
  · norm_num [calc_pseudotime, dEx3, lookupA, updateAssoc, euclid, listMin,
      listMax, sqrtC6]
  · norm_num

/-- C6 as amended: when every cell is listed as a root, `calc_pseudotime`
assigns to each cell the min-max normalization of its mean distance to all
cells (which is not `0.0` for every cell in general, per the
counterexample). -/
theorem claim_C6 (sqrt : ℚ → ℚ) (data : AnnData) (roots : List String)
    (X : List (List ℚ)) (hX : lookupA data.obsm "X_diffmap" = some X)
    (hlen : data.obs_names.length = X.length)
    (hroots : ∀ nm ∈ data.obs_names, nm ∈ roots) :
    ∃ pt : AnnData,
      calc_pseudotime sqrt data roots = .ok pt ∧
      lookupA pt.obs "pseudotime" =
        some (.num (minmaxNormalize (meanDistAll sqrt X))) := by
  simp only [calc_pseudotime, hX]
  refine ⟨_, rfl, ?_⟩
  have hmask : ((X.zip (data.obs_names.map (fun nm => decide (nm ∈ roots)))).filter
      (fun p => p.2)).map Prod.fst = X := by
    refine filter_zip_all_true X _ (by simp [hlen]) ?_
    intro b hb
    simp only [List.mem_map] at hb
    obtain ⟨nm, hnm, hbe⟩ := hb
    simp [← hbe, hroots nm hnm]
  rw [hmask, lookupA_updateAssoc_self]
  rfl

/-- Witness for the amended C6 at the three-cell example. -/
theorem claim_C6_witness :
    (lookupA dEx3.obsm "X_diffmap" = some [[0], [1], [3]] ∧
      dEx3.obs_names.length = ([[0], [1], [3]] : List (List ℚ)).length ∧
      ∀ nm ∈ dEx3.obs_names, nm ∈ ["c0", "c1", "c2"]) ∧
    ∃ pt : AnnData,
      calc_pseudotime sqrtC6 dEx3 ["c0", "c1", "c2"] = .ok pt ∧
      lookupA pt.obs "pseudotime" =
        some (.num (minmaxNormalize (meanDistAll sqrtC6 [[0], [1], [3]]))) :=
  ⟨⟨rfl, rfl, by decide⟩,
   claim_C6 sqrtC6 dEx3 ["c0", "c1", "c2"] [[0], [1], [3]] rfl rfl (by decide)⟩

/-! ### C8: driver error handling and the PCA fallback -/

/-- C8: all four drivers raise the remediation error when the affinity matrix
for the requested representation is absent; the spectral drivers fall back
exactly once to the PCA representation when the requested k-means coordinates
are absent, and raise the "run pca first" error only when the PCA coordinates
are also absent. -/
theorem claim_C8 :
    (∀ (opt : LouvainOracle) (data : AnnData) (rep : String) (resolution : ℚ)
        (seed : ℤ) (cl : String),
        lookupA data.uns ("W_" ++ rep) = none →
        louvain opt data rep resolution seed cl =
          .error "Cannot find affinity matrix. Please run neighbors first!") ∧
    (∀ (opt : LeidenOracle) (data : AnnData) (rep : String) (resolution : ℚ)
        (n_iter seed : ℤ) (cl : String),
        lookupA data.uns ("W_" ++ rep) = none →
        leiden opt data rep resolution n_iter seed cl =
          .error "Cannot find affinity matrix. Please run neighbors first!") ∧
    (∀ (opt : SpectralOracle) (km : KmOracle) (data : AnnData)
        (rep : String) (resolution : ℚ) (rk : String) (nc nc2 ni : ℕ)
        (nj seed : ℤ) (cl : String),
        ((lookupA data.obsm ("X_" ++ rk)).isSome →
          lookupA data.uns ("W_" ++ rep) = none →
          spectral_louvain opt km data rep resolution rk nc nc2 ni nj seed cl =
            .error "Cannot find affinity matrix. Please run neighbors first!") ∧
        (lookupA data.obsm ("X_" ++ rk) = none →
          (lookupA data.obsm "X_pca").isSome →
          spectral_louvain opt km data rep resolution rk nc nc2 ni nj seed cl =
            spectral_louvain opt km data rep resolution "pca" nc nc2 ni nj seed
              cl) ∧
        (lookupA data.obsm ("X_" ++ rk) = none →
          lookupA data.obsm "X_pca" = none →
          spectral_louvain opt km data rep resolution rk nc nc2 ni nj seed cl =
            .error "Please run pca first!")) ∧
    ∀ (opt : SpectralOracle) (km : KmOracle) (data : AnnData)
        (rep : String) (resolution : ℚ) (rk : String) (nc nc2 ni : ℕ)
        (nj seed : ℤ) (cl : String),
        ((lookupA data.obsm ("X_" ++ rk)).isSome →
          lookupA data.uns ("W_" ++ rep) = none →
          spectral_leiden opt km data rep resolution rk nc nc2 ni nj seed cl =
            .error "Cannot find affinity matrix. Please run neighbors first!") ∧
        (lookupA data.obsm ("X_" ++ rk) = none →
          (lookupA data.obsm "X_pca").isSome →
          spectral_leiden opt km data rep resolution rk nc nc2 ni nj seed cl =
            spectral_leiden opt km data rep resolution "pca" nc nc2 ni nj seed
              cl) ∧
        (lookupA data.obsm ("X_" ++ rk) = none →
          lookupA data.obsm "X_pca" = none →
          spectral_leiden opt km data rep resolution rk nc nc2 ni nj seed cl =
            .error "Please run pca first!") := by
  have hpca : ("X_" ++ "pca" : String) = "X_pca" := rfl
  refine ⟨?_, ?_, ?_, ?_⟩
  · intro opt data rep resolution seed cl h
    simp [louvain, h]
  · intro opt data rep resolution n_iter seed cl h
    simp [leiden, h]
  · intro opt km data rep resolution rk nc nc2 ni nj seed cl
    refine ⟨?_, ?_, ?_⟩
    · intro hk hW
      obtain ⟨Xk, hXk⟩ := Option.isSome_iff_exists.mp hk
      simp [spectral_louvain, hXk, spectralBody, hW]
    · intro hk hp
      obtain ⟨Xp, hXp⟩ := Option.isSome_iff_exists.mp hp
      simp [spectral_louvain, hk, hXp, hpca]
    · intro hk hp
      simp [spectral_louvain, hk, hp]
  · intro opt km data rep resolution rk nc nc2 ni nj seed cl
    refine ⟨?_, ?_, ?_⟩
    · intro hk hW
      obtain ⟨Xk, hXk⟩ := Option.isSome_iff_exists.mp hk
      simp [spectral_leiden, hXk, spectralBody, hW]
    · intro hk hp
      obtain ⟨Xp, hXp⟩ := Option.isSome_iff_exists.mp hp
      simp [spectral_leiden, hk, hXp, hpca]
    · intro hk hp
      simp [spectral_leiden, hk, hp]

/-- A container with PCA coordinates but no affinity matrix and no diffusion
coordinates. -/
def dPcaOnly : AnnData :=
  { obs_names := ["c0", "c1"]
    obs := []
    obsm := [("X_pca", [[0], [1]])]
    uns := [] }

/-- A trivial k-means oracle for witnesses. -/
def km0 : KmOracle := fun X ncl _ _ => (List.range X.length).map (· % ncl)

/-- A trivial spectral-optimizer oracle for witnesses. -/
def spec0 : SpectralOracle := fun _ _ _ labels => labels

/-- Witness for C8: on `dPcaOnly`, `louvain` raises the neighbors error;
`spectral_louvain` asked for the absent `diffmap` representation falls back to
PCA, and then raises the neighbors error; with `X_pca` also missing it raises
the "run pca first" error. -/
theorem claim_C8_witness :
    (lookupA dPcaOnly.uns ("W_" ++ "pca") = none ∧
      louvain (fun _ _ _ => []) dPcaOnly "pca" 1 0 "louvain_labels" =
        .error "Cannot find affinity matrix. Please run neighbors first!") ∧
    (lookupA dPcaOnly.obsm ("X_" ++ "diffmap") = none ∧
      spectral_louvain spec0 km0 dPcaOnly "pca" 1 "diffmap" 2 2 1 (-1) 0
          "spectral_louvain_labels" =
        spectral_louvain spec0 km0 dPcaOnly "pca" 1 "pca" 2 2 1 (-1) 0
          "spectral_louvain_labels") ∧
    (lookupA dEx3.obsm ("X_" ++ "diffmap2") = none ∧
      lookupA dEx3.obsm "X_pca" = none ∧
      spectral_leiden spec0 km0 dEx3 "pca" 1 "diffmap2" 2 2 1 (-1) 0
          "spectral_leiden_labels" = .error "Please run pca first!") :=
  ⟨⟨rfl, claim_C8.1 (fun _ _ _ => []) dPcaOnly "pca" 1 0 "louvain_labels" rfl⟩,
   ⟨rfl, ((claim_C8.2.2.1 spec0 km0 dPcaOnly "pca" 1 "diffmap" 2 2 1 (-1) 0
      "spectral_louvain_labels").2.1 rfl (by rfl))⟩,
   ⟨rfl, rfl, ((claim_C8.2.2.2 spec0 km0 dEx3 "pca" 1 "diffmap2" 2 2 1 (-1) 0
      "spectral_leiden_labels").2.2 rfl rfl)⟩⟩

/-! ### C9: drivers write only the `class_label` column -/

/-- The frame property: `d'` agrees with `data` everywhere except possibly the
`cl` column of `obs`. -/
def FrameOk (data d' : AnnData) (cl : String) : Prop :=
  d'.obs_names = data.obs_names ∧ d'.obsm = data.obsm ∧ d'.uns = data.uns ∧
    ∀ key : String, key ≠ cl → lookupA d'.obs key = lookupA data.obs key

/-- A successful `spectralBody` only touches the `cl` column of `obs`. -/
theorem spectralBody_frame (opt : SpectralOracle) (km : KmOracle)
    (data : AnnData) (rep : String) (resolution : ℚ) (rk : String)
    (nc nc2 ni : ℕ) (nj seed : ℤ) (cl : String) (d' : AnnData)
    (h : spectralBody opt km data rep resolution rk nc nc2 ni nj seed cl =
      .ok d') : FrameOk data d' cl := by
  cases hW : lookupA data.uns ("W_" ++ rep) with
  | none => simp [spectralBody, hW] at h
  | some u =>
    cases u with
    | mat W =>
      simp only [spectralBody, hW, Except.ok.injEq] at h
      subst h
      exact ⟨rfl, rfl, rfl, fun key hk => lookupA_updateAssoc_ne _ _ _ _ hk⟩
    | strs s => simp [spectralBody, hW] at h
    | vec v => simp [spectralBody, hW] at h

/-- C9: each clustering driver, when it succeeds, writes only the single
`class_label` column of `obs`; `obs_names`, every other `obs` column, every
`obsm` matrix and every `uns` slot (in particular the affinity matrix) are
unchanged. -/
theorem claim_C9 :
    (∀ (opt : LouvainOracle) (data : AnnData) (rep : String) (resolution : ℚ)
        (seed : ℤ) (cl : String) (d' : AnnData),
        louvain opt data rep resolution seed cl = .ok d' →
        FrameOk data d' cl) ∧
    (∀ (opt : LeidenOracle) (data : AnnData) (rep : String) (resolution : ℚ)
        (n_iter seed : ℤ) (cl : String) (d' : AnnData),
        leiden opt data rep resolution n_iter seed cl = .ok d' →
        FrameOk data d' cl) ∧
    (∀ (opt : SpectralOracle) (km : KmOracle) (data : AnnData) (rep : String)
        (resolution : ℚ) (rk : String) (nc nc2 ni : ℕ) (nj seed : ℤ)
        (cl : String) (d' : AnnData),
        spectral_louvain opt km data rep resolution rk nc nc2 ni nj seed cl =
          .ok d' → FrameOk data d' cl) ∧
    ∀ (opt : SpectralOracle) (km : KmOracle) (data : AnnData) (rep : String)
        (resolution : ℚ) (rk : String) (nc nc2 ni : ℕ) (nj seed : ℤ)
        (cl : String) (d' : AnnData),
        spectral_leiden opt km data rep resolution rk nc nc2 ni nj seed cl =
          .ok d' → FrameOk data d' cl := by
  refine ⟨?_, ?_, ?_, ?_⟩
  · intro opt data rep resolution seed cl d' h
    cases hW : lookupA data.uns ("W_" ++ rep) with
    | none => simp [louvain, hW] at h
    | some u =>
      cases u with
      | mat W =>
        simp only [louvain, hW, Except.ok.injEq] at h
        subst h
        exact ⟨rfl, rfl, rfl, fun key hk => lookupA_updateAssoc_ne _ _ _ _ hk⟩
      | strs s => simp [louvain, hW] at h
      | vec v => simp [louvain, hW] at h
  · intro opt data rep resolution n_iter seed cl d' h
    cases hW : lookupA data.uns ("W_" ++ rep) with
    | none => simp [leiden, hW] at h
    | some u =>
      cases u with
      | mat W =>
        simp only [leiden, hW, Except.ok.injEq] at h
        subst h
        exact ⟨rfl, rfl, rfl, fun key hk => lookupA_updateAssoc_ne _ _ _ _ hk⟩
      | strs s => simp [leiden, hW] at h
      | vec v => simp [leiden, hW] at h
  · intro opt km data rep resolution rk nc nc2 ni nj seed cl d' h
    cases hk : lookupA data.obsm ("X_" ++ rk) with
    | some Xk =>
      simp only [spectral_louvain, hk] at h
      exact spectralBody_frame _ _ _ _ _ _ _ _ _ _ _ _ _ h
    | none =>
      cases hp : lookupA data.obsm "X_pca" with
      | none => simp [spectral_louvain, hk, hp] at h
      | some Xp =>
        simp only [spectral_louvain, hk, hp] at h
        exact spectralBody_frame _ _ _ _ _ _ _ _ _ _ _ _ _ h
  · intro opt km data rep resolution rk nc nc2 ni nj seed cl d' h
    cases hk : lookupA data.obsm ("X_" ++ rk) with
    | some Xk =>
      simp only [spectral_leiden, hk] at h
      exact spectralBody_frame _ _ _ _ _ _ _ _ _ _ _ _ _ h
    | none =>
      cases hp : lookupA data.obsm "X_pca" with
      | none => simp [spectral_leiden, hk, hp] at h
      | some Xp =>
        simp only [spectral_leiden, hk, hp] at h
        exact spectralBody_frame _ _ _ _ _ _ _ _ _ _ _ _ _ h

/-- A container with PCA coordinates and a PCA affinity matrix, plus an
unrelated `obs` column and an unrelated `uns` slot. -/
def dFull : AnnData :=
  { obs_names := ["c0", "c1", "c2"]
    obs := [("batch", .num [0, 1, 0])]
    obsm := [("X_pca", [[0], [1], [3]])]
    uns := [("W_pca", .mat tri3), ("note", .strs ["x"])] }

/-- Witness for C9: a successful `louvain` run on `dFull` leaves everything
but the label column unchanged. -/
theorem claim_C9_witness :
    louvain (fun _ _ _ => [0, 1, 0]) dFull "pca" 1 0 "louvain_labels" =
      .ok { dFull with
            obs := dFull.obs ++
              [("louvain_labels", .cat (labelCategorical [0, 1, 0]))] } ∧
    FrameOk dFull
      { dFull with
        obs := dFull.obs ++
          [("louvain_labels", .cat (labelCategorical [0, 1, 0]))] }
      "louvain_labels" :=
  ⟨rfl,
   claim_C9.1 (fun _ _ _ => [0, 1, 0]) dFull "pca" 1 0 "louvain_labels" _ rfl⟩

/-! ### C5: 1-indexed labels with natural-sorted categories -/

theorem digitVal_digitChar (d : ℕ) (hd : d < 10) :
    digitVal (Nat.digitChar d) = d := by
  interval_cases d <;> rfl

theorem strToNat_foldl (ds : List ℕ) (h : ∀ d ∈ ds, d < 10) (acc : ℕ) :
    (ds.reverse.map Nat.digitChar).foldl (fun a c => 10 * a + digitVal c) acc =
      acc * 10 ^ ds.length + Nat.ofDigits 10 ds := by
  induction ds generalizing acc with
  | nil => simp
  | cons d t ih =>
    have hd : d < 10 := h d (by simp)
    have ht : ∀ x ∈ t, x < 10 := fun x hx => h x (by simp [hx])
    simp only [List.reverse_cons, List.map_append, List.foldl_append,
      List.map_cons, List.foldl_cons, List.foldl_nil, List.map_nil]
    rw [ih ht acc, digitVal_digitChar d hd, Nat.ofDigits_cons]
    simp only [List.length_cons, Nat.cast_id]
    ring

/-- Parsing is a left inverse of printing: the decimal numeral of `n` parses
back to `n`. -/
theorem strToNat_decimalStr (n : ℕ) : strToNat (decimalStr n) = n := by
  by_cases h : n = 0
  · subst h; rfl
  · unfold decimalStr
    rw [if_neg h]
    show ((Nat.digits 10 n).reverse.map Nat.digitChar).foldl
      (fun a c => 10 * a + digitVal c) 0 = n
    rw [strToNat_foldl _ (fun d hd => Nat.digits_lt_base (by norm_num) hd) 0]
    simp [Nat.ofDigits_digits]

theorem decimalStr_injective : Function.Injective decimalStr := by
  intro a b h
  have := congrArg strToNat h
  rwa [strToNat_decimalStr, strToNat_decimalStr] at this

/-- The label post-processing produces the 1-indexed numeral of each
membership entry, and a category list with the same members as the label set,
pairwise strictly increasing in numeric value (the natural sort order). -/
theorem labelCategorical_spec (membership : List ℕ) :
    (labelCategorical membership).values =
      membership.map (fun x => decimalStr (x + 1)) ∧
    (∀ s, s ∈ (labelCategorical membership).categories ↔
      s ∈ (labelCategorical membership).values) ∧
    (labelCategorical membership).categories.Pairwise
      (fun a b => strToNat a < strToNat b) := by
  refine ⟨rfl, ?_, ?_⟩
  · intro s
    show s ∈ natsorted (npUnique (membership.map (fun x => decimalStr (x + 1)))) ↔
      s ∈ membership.map (fun x => decimalStr (x + 1))
    unfold natsorted npUnique
    simp
  · have hsort : (natsorted (npUnique (membership.map
        (fun x => decimalStr (x + 1))))).Pairwise (fun a b => natLe a b) := by
      refine List.sorted_mergeSort ?_ ?_ _
      · intro a b c hab hbc
        simp only [natLe, decide_eq_true_eq] at hab hbc ⊢
        omega
      · intro a b
        simp only [natLe]
        rcases Nat.le_total (strToNat a) (strToNat b) with h | h <;> simp [h]
    have hnd : (natsorted (npUnique (membership.map
        (fun x => decimalStr (x + 1))))).Nodup :=
      (List.mergeSort_perm _ natLe).symm.nodup (List.nodup_dedup _)
    refine (hsort.and hnd).imp_of_mem ?_
    intro a b ha hb hab
    obtain ⟨hle, hne⟩ := hab
    have hmem : ∀ s ∈ natsorted (npUnique (membership.map
        (fun x => decimalStr (x + 1)))), ∃ x, s = decimalStr (x + 1) := by
      intro s hs
      unfold natsorted npUnique at hs
      simp only [List.mem_mergeSort, List.mem_dedup, List.mem_map] at hs
      obtain ⟨x, _, hxe⟩ := hs
      exact ⟨x, hxe.symm⟩
    obtain ⟨x, hx⟩ := hmem a ha
    obtain ⟨y, hy⟩ := hmem b hb
    simp only [natLe, decide_eq_true_eq] at hle
    rcases Nat.lt_or_ge (strToNat a) (strToNat b) with h | h
    · exact h
    · exfalso
      apply hne
      have hxy : strToNat a = strToNat b := le_antisymm hle h
      rw [hx, hy, strToNat_decimalStr, strToNat_decimalStr] at hxy
      rw [hx, hy, hxy]

/-- C5: each driver, on success, stores in `obs[class_label]` the categorical
whose values are the 1-indexed decimal labels of the optimizer membership and
whose category list has exactly the distinct labels, ordered by increasing
numeric value (natural sort), never lexicographically. -/
theorem claim_C5 :
    (∀ (opt : LouvainOracle) (data : AnnData) (rep : String) (resolution : ℚ)
        (seed : ℤ) (cl : String) (W : SparseMat),
        lookupA data.uns ("W_" ++ rep) = some (.mat W) →
        ∃ d', louvain opt data rep resolution seed cl = .ok d' ∧
          lookupA d'.obs cl =
            some (.cat (labelCategorical (opt W resolution seed))) ∧
          (labelCategorical (opt W resolution seed)).values =
            (opt W resolution seed).map (fun x => decimalStr (x + 1)) ∧
          (∀ s, s ∈ (labelCategorical (opt W resolution seed)).categories ↔
            s ∈ (labelCategorical (opt W resolution seed)).values) ∧
          (labelCategorical (opt W resolution seed)).categories.Pairwise
            (fun a b => strToNat a < strToNat b)) ∧
    (∀ (opt : LeidenOracle) (data : AnnData) (rep : String) (resolution : ℚ)
        (n_iter seed : ℤ) (cl : String) (W : SparseMat),
        lookupA data.uns ("W_" ++ rep) = some (.mat W) →
        ∃ d', leiden opt data rep resolution n_iter seed cl = .ok d' ∧
          lookupA d'.obs cl =
            some (.cat (labelCategorical (opt W resolution seed n_iter))) ∧
          (labelCategorical (opt W resolution seed n_iter)).values =
            (opt W resolution seed n_iter).map (fun x => decimalStr (x + 1)) ∧
          (∀ s,
            s ∈ (labelCategorical (opt W resolution seed n_iter)).categories ↔
              s ∈ (labelCategorical (opt W resolution seed n_iter)).values) ∧
          (labelCategorical (opt W resolution seed n_iter)).categories.Pairwise
            (fun a b => strToNat a < strToNat b)) ∧
    (∀ (opt : SpectralOracle) (km : KmOracle) (data : AnnData) (rep : String)
        (resolution : ℚ) (rk : String) (nc nc2 ni : ℕ) (nj seed : ℤ)
        (cl : String) (W : SparseMat) (Xk : List (List ℚ)),
        lookupA data.obsm ("X_" ++ rk) = some Xk →
        lookupA data.uns ("W_" ++ rep) = some (.mat W) →
        ∃ d',
          spectral_louvain opt km data rep resolution rk nc nc2 ni nj seed cl =
            .ok d' ∧
          lookupA d'.obs cl = some (.cat (labelCategorical (opt W resolution
            seed (partition_cells_by_kmeans km data rk nj nc nc2 ni seed)))) ∧
          (labelCategorical (opt W resolution seed
              (partition_cells_by_kmeans km data rk nj nc nc2 ni
                seed))).categories.Pairwise
            (fun a b => strToNat a < strToNat b)) ∧
    ∀ (opt : SpectralOracle) (km : KmOracle) (data : AnnData) (rep : String)
        (resolution : ℚ) (rk : String) (nc nc2 ni : ℕ) (nj seed : ℤ)
        (cl : String) (W : SparseMat) (Xk : List (List ℚ)),
        lookupA data.obsm ("X_" ++ rk) = some Xk →
        lookupA data.uns ("W_" ++ rep) = some (.mat W) →
        ∃ d',
          spectral_leiden opt km data rep resolution rk nc nc2 ni nj seed cl =
            .ok d' ∧
          lookupA d'.obs cl = some (.cat (labelCategorical (opt W resolution
            seed (partition_cells_by_kmeans km data rk nj nc nc2 ni seed)))) ∧
          (labelCategorical (opt W resolution seed
              (partition_cells_by_kmeans km data rk nj nc nc2 ni
                seed))).categories.Pairwise
            (fun a b => strToNat a < strToNat b) := by
  refine ⟨?_, ?_, ?_, ?_⟩
  · intro opt data rep resolution seed cl W hW
    simp only [louvain, hW]
    exact ⟨_, rfl, lookupA_updateAssoc_self _ _ _, (labelCategorical_spec _).1,
      (labelCategorical_spec _).2.1, (labelCategorical_spec _).2.2⟩
  · intro opt data rep resolution n_iter seed cl W hW
    simp only [leiden, hW]
    exact ⟨_, rfl, lookupA_updateAssoc_self _ _ _, (labelCategorical_spec _).1,
      (labelCategorical_spec _).2.1, (labelCategorical_spec _).2.2⟩
  · intro opt km data rep resolution rk nc nc2 ni nj seed cl W Xk hXk hW
    simp only [spectral_louvain, hXk, spectralBody, hW]
    exact ⟨_, rfl, lookupA_updateAssoc_self _ _ _, (labelCategorical_spec _).2.2⟩
  · intro opt km data rep resolution rk nc nc2 ni nj seed cl W Xk hXk hW
    simp only [spectral_leiden, hXk, spectralBody, hW]
    exact ⟨_, rfl, lookupA_updateAssoc_self _ _ _, (labelCategorical_spec _).2.2⟩

/-- Witness for C5: `louvain` on `dFull` with a 10-community membership. -/
theorem claim_C5_witness :
    lookupA dFull.uns ("W_" ++ "pca") = some (.mat tri3) ∧
    ∃ d',
      louvain (fun _ _ _ => List.range 10) dFull "pca" 1 0 "louvain_labels" =
        .ok d' ∧
      lookupA d'.obs "louvain_labels" =
        some (.cat (labelCategorical (List.range 10))) ∧
      (labelCategorical (List.range 10)).values =
        (List.range 10).map (fun x => decimalStr (x + 1)) ∧
      (∀ s, s ∈ (labelCategorical (List.range 10)).categories ↔
        s ∈ (labelCategorical (List.range 10)).values) ∧
      (labelCategorical (List.range 10)).categories.Pairwise
        (fun a b => strToNat a < strToNat b) :=
  ⟨rfl, claim_C5.1 (fun _ _ _ => List.range 10) dFull "pca" 1 0
    "louvain_labels" tri3 rfl⟩

/-! ### C1: shape and scaling of the diffusion-map output -/

theorem getD_of_lt {α : Type} (l : List α) (i : ℕ) (d : α) (h : i < l.length) :
    l.getD i d = l[i] := by
  rw [List.getD_eq_getElem?_getD, List.getElem?_eq_getElem h]
  rfl

theorem getD_map_of_lt {α β : Type} (f : α → β) (l : List α) (i : ℕ) (d : α)
    (d' : β) (h : i < l.length) : (l.map f).getD i d' = f (l.getD i d) := by
  rw [getD_of_lt _ _ _ (by simpa using h), getD_of_lt _ _ _ h, List.getElem_map]

theorem getD_zip_of_lt {α β : Type} (l : List α) (l' : List β) (i : ℕ) (d : α)
    (d' : β) (h : i < l.length) (h' : i < l'.length) :
    (l.zip l').getD i (d, d') = (l.getD i d, l'.getD i d') := by
  rw [getD_of_lt _ _ _ (by simp [List.length_zip]; omega),
    getD_of_lt _ _ _ h, getD_of_lt _ _ _ h', List.getElem_zip]

theorem getD_zipWith_of_lt {α β γ : Type} (f : α → β → γ) (l : List α)
    (l' : List β) (i : ℕ) (da : α) (db : β) (dc : γ) (h : i < l.length)
    (h' : i < l'.length) :
    (List.zipWith f l l').getD i dc = f (l.getD i da) (l'.getD i db) := by
  rw [getD_of_lt _ _ _ (by simp [List.length_zipWith]; omega),
    getD_of_lt _ _ _ h, getD_of_lt _ _ _ h', List.getElem_zipWith]

theorem elemMul_rows (A B : List (List ℚ)) (c : ℕ) (hA : ∀ r ∈ A, r.length = c)
    (hB : ∀ r ∈ B, r.length = c) : ∀ r ∈ elemMul A B, r.length = c := by
  induction A generalizing B with
  | nil => simp [elemMul]
  | cons a A' ih =>
    cases B with
    | nil => simp [elemMul]
    | cons b B' =>
      intro r hr
      simp only [elemMul, List.zipWith_cons_cons, List.mem_cons] at hr
      rcases hr with rfl | hr
      · simp [List.length_zipWith, hA a (by simp), hB b (by simp)]
      · exact ih B' (fun x hx => hA x (by simp [hx]))
          (fun x hx => hB x (by simp [hx])) r hr

theorem elemMul_length (A B : List (List ℚ)) :
    (elemMul A B).length = min A.length B.length := by
  simp [elemMul, List.length_zipWith]

theorem npTranspose_length (m : List (List ℚ)) :
    (npTranspose m).length = (m.headD []).length := by
  simp [npTranspose]

theorem npTranspose_rows (m : List (List ℚ)) :
    ∀ r ∈ npTranspose m, r.length = m.length := by
  intro r hr
  simp only [npTranspose, List.mem_map, List.mem_range] at hr
  obtain ⟨i, _, rfl⟩ := hr
  simp

theorem colSums_foldl_length (c : ℕ) (rs : List (List ℚ)) :
    ∀ acc : List ℚ, acc.length = c → (∀ r ∈ rs, r.length = c) →
    (rs.foldl (fun acc row => List.zipWith (· + ·) acc row) acc).length = c := by
  induction rs with
  | nil => intro acc h _; simpa using h
  | cons r rs' ih =>
    intro acc hacc hall
    simp only [List.foldl_cons]
    exact ih _ (by simp [List.length_zipWith, hacc, hall r (by simp)])
      (fun x hx => hall x (by simp [hx]))

theorem colSums_length (m : List (List ℚ)) (c : ℕ) (hne : m ≠ [])
    (h : ∀ r ∈ m, r.length = c) : (colSums m).length = c := by
  cases m with
  | nil => exact absurd rfl hne
  | cons r rs =>
    exact colSums_foldl_length c rs r (h r (by simp))
      (fun x hx => h x (by simp [hx]))

/-- Shape and pointwise value of the post-processing shared by both solver
paths of `calculate_diffusion_map`: drop the first eigenpair, divide row `i`
of the eigenvectors by `d_half[i]`, and multiply column `j` by
`Λ[j] / (1 − αΛ[j])`. -/
theorem diffPost_spec (alpha : ℚ) (dh lam0 : List ℚ) (u0 : List (List ℚ))
    (k n : ℕ) (hlam : lam0.length = k) (hu : u0.length = n)
    (hdh : dh.length = n) (hrow : ∀ row ∈ u0, row.length = k) :
    (lam0.drop 1).length = k - 1 ∧
    ((((u0.map (List.drop 1)).zip dh).map (fun p => p.1.map (· / p.2))).map
        (fun row => List.zipWith (· * ·) row ((lam0.drop 1).map
          (fun l => l / (1 - alpha * l))))).length = n ∧
    (∀ row ∈ (((u0.map (List.drop 1)).zip dh).map
        (fun p => p.1.map (· / p.2))).map
        (fun row => List.zipWith (· * ·) row ((lam0.drop 1).map
          (fun l => l / (1 - alpha * l)))), row.length = k - 1) ∧
    ∀ i, i < n → ∀ j, j < k - 1 →
      (((((u0.map (List.drop 1)).zip dh).map (fun p => p.1.map (· / p.2))).map
          (fun row => List.zipWith (· * ·) row ((lam0.drop 1).map
            (fun l => l / (1 - alpha * l))))).getD i []).getD j 0 =
        ((u0.getD i []).drop 1).getD j 0 / dh.getD i 0 *
          ((lam0.drop 1).getD j 0 / (1 - alpha * (lam0.drop 1).getD j 0)) := by
  have hUlen : (u0.map (List.drop 1)).length = n := by simp [hu]
  have hZlen : ((u0.map (List.drop 1)).zip dh).length = n := by
    simp [List.length_zip, hu, hdh]
  have hPhiLen : (((u0.map (List.drop 1)).zip dh).map
      (fun p => p.1.map (· / p.2))).length = n := by
    simp only [List.length_map]
    exact hZlen
  have hLnew : ((lam0.drop 1).map (fun l => l / (1 - alpha * l))).length =
      k - 1 := by simp [hlam]
  have hld : (lam0.drop 1).length = k - 1 := by simp [hlam]
  refine ⟨hld, by simp only [List.length_map]; exact hZlen, ?_, ?_⟩
  · intro row hrowm
    simp only [List.mem_map] at hrowm
    obtain ⟨phirow, hinner, rfl⟩ := hrowm
    obtain ⟨p, hp, rfl⟩ := hinner
    obtain ⟨a, b⟩ := p
    obtain ⟨ha, _⟩ := List.of_mem_zip hp
    simp only [List.mem_map] at ha
    obtain ⟨r, hr, rfl⟩ := ha
    have hr' : r.length = k := hrow r hr
    simp [List.length_zipWith, hLnew, hr']
    omega
  · intro i hi j hj
    have hui : i < u0.length := by omega
    have hrowi : (u0.getD i []).length = k := by
      rw [getD_of_lt _ _ _ hui]
      exact hrow _ (List.getElem_mem hui)
    have hUi : (u0.map (List.drop 1)).getD i [] = (u0.getD i []).drop 1 :=
      getD_map_of_lt _ _ i [] [] hui
    have hUilen : ((u0.map (List.drop 1)).getD i []).length = k - 1 := by
      rw [hUi, List.length_drop, hrowi]
    have hPhii : ((((u0.map (List.drop 1)).zip dh)).map
        (fun p => p.1.map (· / p.2))).getD i [] =
        ((u0.map (List.drop 1)).getD i []).map (· / dh.getD i 0) := by
      rw [getD_map_of_lt _ _ i (([], 0) : List ℚ × ℚ) [] (by omega),
        getD_zip_of_lt _ _ i [] 0 (by omega) (by omega)]
    have hPhiilen : (((((u0.map (List.drop 1)).zip dh)).map
        (fun p => p.1.map (· / p.2))).getD i []).length = k - 1 := by
      rw [hPhii, List.length_map]
      exact hUilen
    rw [getD_map_of_lt _ _ i ([] : List ℚ) [] (by omega)]
    rw [getD_zipWith_of_lt _ _ _ j 0 0 0 (by omega) (by omega)]
    rw [hPhii, getD_map_of_lt _ _ j 0 0 (by omega), hUi]
    rw [getD_map_of_lt _ _ j 0 0 (by omega)]

/-- C1: for a strongly connected `W`, `calculate_diffusion_map` returns
`(Φ_pt, Λ)` where `Λ` is the solver's eigenvalue vector with the first
(largest) entry dropped and is returned *pre-rescaling*, `Φ_pt` has `N` rows
of `k − 1` entries, and entry `(i, j)` of `Φ_pt` is
`U[i][j] / d_half[i] * (Λ[j] / (1 − α·Λ[j]))` — for both solver paths. -/
theorem claim_C1 (sqrt : ℚ → ℚ) (svd : SvdOracle) (rng : RngOracle)
    (eigsh : EigshOracle) (W : SparseMat) (k : ℕ) (alpha : ℚ) (seed : ℤ)
    (hscc : W.sccCount = 1) :
    (∀ (lam : List ℚ) (u : List (List ℚ)),
      eigsh (calculate_normalized_affinity sqrt W).1 k
        (rng seed (-1) 1 (calculate_normalized_affinity sqrt W).1.n) =
          (lam, u) →
      lam.length = k → u.length = W.n → (∀ row ∈ u, row.length = k) →
      ∃ res,
        calculate_diffusion_map sqrt svd rng eigsh W k alpha "eigsh" seed =
          .ok res ∧
        res.2 = lam.reverse.drop 1 ∧
        res.2.length = k - 1 ∧
        res.1.length = W.n ∧
        (∀ row ∈ res.1, row.length = k - 1) ∧
        ∀ i, i < W.n → ∀ j, j < k - 1 →
          (res.1.getD i []).getD j 0 =
            ((u.getD i []).reverse.drop 1).getD j 0 /
                (calculate_normalized_affinity sqrt W).2.2.getD i 0 *
              (res.2.getD j 0 / (1 - alpha * res.2.getD j 0))) ∧
    ∀ o : SvdOut,
      svd (calculate_normalized_affinity sqrt W).1 k seed = o →
      o.S.length = k → o.U.length = W.n → (∀ row ∈ o.U, row.length = k) →
      o.VT.length = k → (∀ row ∈ o.VT, row.length = W.n) →
      ∃ res,
        calculate_diffusion_map sqrt svd rng eigsh W k alpha "randomized"
          seed = .ok res ∧
        res.2 = (List.zipWith (· * ·)
          ((colSums (elemMul o.U (npTranspose o.VT))).map qsign) o.S).drop 1 ∧
        res.2.length = k - 1 ∧
        res.1.length = W.n ∧
        (∀ row ∈ res.1, row.length = k - 1) ∧
        ∀ i, i < W.n → ∀ j, j < k - 1 →
          (res.1.getD i []).getD j 0 =
            ((o.U.getD i []).drop 1).getD j 0 /
                (calculate_normalized_affinity sqrt W).2.2.getD i 0 *
              (res.2.getD j 0 / (1 - alpha * res.2.getD j 0)) := by
  have hdh : (calculate_normalized_affinity sqrt W).2.2.length = W.n := by
    simp [calculate_normalized_affinity]
  constructor
  · intro lam u hE hlam hu hrow
    have hrun : calculate_diffusion_map sqrt svd rng eigsh W k alpha "eigsh"
        seed = .ok
        (((((u.map List.reverse).map (List.drop 1)).zip
            (calculate_normalized_affinity sqrt W).2.2).map
            (fun p => p.1.map (· / p.2))).map
            (fun row => List.zipWith (· * ·) row ((lam.reverse.drop 1).map
              (fun l => l / (1 - alpha * l)))),
          lam.reverse.drop 1) := by
      simp only [calculate_diffusion_map, hscc, ne_eq, not_true_eq_false,
        if_false, reduceIte, hE]
      rfl
    have hrows : ∀ row ∈ u.map List.reverse, row.length = k := by
      intro r hr
      simp only [List.mem_map] at hr
      obtain ⟨r0, hr0, rfl⟩ := hr
      simp [hrow r0 hr0]
    have post := diffPost_spec alpha (calculate_normalized_affinity sqrt W).2.2
      lam.reverse (u.map List.reverse) k W.n (by simp [hlam]) (by simp [hu])
      hdh hrows
    refine ⟨_, hrun, rfl, post.1, post.2.1, post.2.2.1, ?_⟩
    intro i hi j hj
    have := post.2.2.2 i hi j hj
    rwa [show (u.map List.reverse).getD i [] = (u.getD i []).reverse from
      getD_map_of_lt _ _ i [] [] (by omega)] at this
  · intro o hO hS hU hUrow hVT hVTrow
    have hrun : calculate_diffusion_map sqrt svd rng eigsh W k alpha
        "randomized" seed = .ok
        ((((o.U.map (List.drop 1)).zip
            (calculate_normalized_affinity sqrt W).2.2).map
            (fun p => p.1.map (· / p.2))).map
            (fun row => List.zipWith (· * ·) row
              (((List.zipWith (· * ·)
                ((colSums (elemMul o.U (npTranspose o.VT))).map qsign)
                  o.S).drop 1).map
                (fun l => l / (1 - alpha * l)))),
          (List.zipWith (· * ·)
            ((colSums (elemMul o.U (npTranspose o.VT))).map qsign)
              o.S).drop 1) := by
      simp only [calculate_diffusion_map, hscc, ne_eq, not_true_eq_false,
        if_false, reduceIte, hO]
      rfl
    have hlam0 : (List.zipWith (· * ·)
        ((colSums (elemMul o.U (npTranspose o.VT))).map qsign) o.S).length =
        k := by
      rcases Nat.eq_zero_or_pos k with hk | hk
      · simp [List.length_zipWith, hS, hk]
      · have hn : 0 < W.n := by
          rcases Nat.eq_zero_or_pos W.n with h0 | h0
          · exfalso
            rw [SparseMat.sccCount, h0] at hscc
            simp at hscc
          · exact h0
        have hVTne : o.VT ≠ [] := by
          intro hh
          rw [hh] at hVT
          simp at hVT
          omega
        have hhead : (o.VT.headD []).length = W.n := by
          cases hvt : o.VT with
          | nil => exact absurd hvt hVTne
          | cons r rs =>
            rw [hvt] at hVTrow
            simpa using hVTrow r (by simp)
        have hT1 : (npTranspose o.VT).length = W.n := by
          rw [npTranspose_length, hhead]
        have hT2 : ∀ r ∈ npTranspose o.VT, r.length = k := by
          intro r hr
          rw [npTranspose_rows o.VT r hr, hVT]
        have hE1 : (elemMul o.U (npTranspose o.VT)).length = W.n := by
          rw [elemMul_length, hU, hT1, min_self]
        have hEne : elemMul o.U (npTranspose o.VT) ≠ [] := by
          intro hh
          rw [hh] at hE1
          simp at hE1
          omega
        have hcs : (colSums (elemMul o.U (npTranspose o.VT))).length = k :=
          colSums_length _ k hEne (elemMul_rows _ _ k hUrow hT2)
        simp [List.length_zipWith, hcs, hS]
    have post := diffPost_spec alpha (calculate_normalized_affinity sqrt W).2.2
      (List.zipWith (· * ·)
        ((colSums (elemMul o.U (npTranspose o.VT))).map qsign) o.S) o.U k W.n
      hlam0 hU hdh hUrow
    exact ⟨_, hrun, rfl, post.1, post.2.1, post.2.2.1, post.2.2.2⟩

/-- A concrete `eigsh` oracle: 2 ascending eigenvalues and a `3 × 2`
eigenvector matrix. -/
def eigshW : EigshOracle := fun _ _ _ => ([0, 1], [[1, 2], [3, 4], [5, 6]])

/-- A concrete `randomized_svd` oracle with a `3 × 2` factor `U`, two singular
values and a `2 × 3` factor `VT`. -/
def svdW : SvdOracle := fun _ _ _ =>
  ⟨[[1, 0], [0, 1], [1, 1]], [2, 1], [[1, 0, 0], [0, 1, 0]]⟩

/-- A concrete random-vector oracle. -/
def rngW : RngOracle := fun _ _ _ n => List.replicate n (1/2)

/-- Witness for C1 at the 3-node triangle with `k = 2`, for both solver
paths. -/
theorem claim_C1_witness :
    (tri3.sccCount = 1 ∧
      eigshW (calculate_normalized_affinity (fun q => q) tri3).1 2
          (rngW 0 (-1) 1 (calculate_normalized_affinity (fun q => q) tri3).1.n)
        = ([0, 1], [[1, 2], [3, 4], [5, 6]]) ∧
      ([0, 1] : List ℚ).length = 2 ∧
      ([[1, 2], [3, 4], [5, 6]] : List (List ℚ)).length = tri3.n ∧
      ∀ row ∈ ([[1, 2], [3, 4], [5, 6]] : List (List ℚ)), row.length = 2) ∧
    (∃ res,
      calculate_diffusion_map (fun q => q) svdW rngW eigshW tri3 2 (1/2)
        "eigsh" 0 = .ok res ∧
      res.2 = ([0, 1] : List ℚ).reverse.drop 1 ∧
      res.2.length = 2 - 1 ∧
      res.1.length = tri3.n ∧
      (∀ row ∈ res.1, row.length = 2 - 1) ∧
      ∀ i, i < tri3.n → ∀ j, j < 2 - 1 →
        (res.1.getD i []).getD j 0 =
          ((([[1, 2], [3, 4], [5, 6]] : List (List ℚ)).getD i
                []).reverse.drop 1).getD j 0 /
              (calculate_normalized_affinity (fun q => q) tri3).2.2.getD i 0 *
            (res.2.getD j 0 / (1 - 1/2 * res.2.getD j 0))) ∧
    ∃ res,
      calculate_diffusion_map (fun q => q) svdW rngW eigshW tri3 2 (1/2)
        "randomized" 0 = .ok res ∧
      res.2 = (List.zipWith (· * ·)
        ((colSums (elemMul (svdW (calculate_normalized_affinity (fun q => q)
            tri3).1 2 0).U
          (npTranspose (svdW (calculate_normalized_affinity (fun q => q)
            tri3).1 2 0).VT))).map qsign)
        (svdW (calculate_normalized_affinity (fun q => q) tri3).1 2
          0).S).drop 1 ∧
      res.2.length = 2 - 1 ∧
      res.1.length = tri3.n ∧
      (∀ row ∈ res.1, row.length = 2 - 1) ∧
      ∀ i, i < tri3.n → ∀ j, j < 2 - 1 →
        (res.1.getD i []).getD j 0 =
          (((svdW (calculate_normalized_affinity (fun q => q) tri3).1 2
                0).U.getD i []).drop 1).getD j 0 /
              (calculate_normalized_affinity (fun q => q) tri3).2.2.getD i 0 *
            (res.2.getD j 0 / (1 - 1/2 * res.2.getD j 0)) := by
  have h := claim_C1 (fun q => q) svdW rngW eigshW tri3 2 (1/2) 0 (by decide)
  exact ⟨⟨by decide, rfl, rfl, rfl, by decide⟩,
    h.1 [0, 1] [[1, 2], [3, 4], [5, 6]] rfl rfl rfl (by decide),
    h.2 (svdW (calculate_normalized_affinity (fun q => q) tri3).1 2 0) rfl rfl
      rfl (by decide) rfl (by decide)⟩

/-! ### C3: the eigsh solver path -/

/-- An `eigsh` oracle returning the ascending eigenvalues
`[-9/10, 1/2, 1]` (a large-magnitude negative eigenvalue is a legitimate
output for a symmetric normalized affinity) with constant eigenvectors. -/
def eigshC3 : EigshOracle := fun _ _ _ =>
  ([-9/10, 1/2, 1], [[1, 1, 1], [1, 1, 1], [1, 1, 1]])

/-- C3 counterexample: with the ascending solver output `[-9/10, 1/2, 1]`,
the retained eigenvalue vector is `[1/2, -9/10]`, which is *not* sorted by
descending magnitude (`|−9/10| > |1/2|`). -/
theorem claim_C3_counterexample :
    List.Chain' (· ≤ ·) ([-9/10, 1/2, 1] : List ℚ) ∧
    (calculate_diffusion_map (fun q => q) svd0 rngW eigshC3 tri3 3 (1/2)
        "eigsh" 0).map (fun p => p.2) = .ok [1/2, -9/10] ∧
    ¬ List.Chain' (fun a b : ℚ => |b| ≤ |a|) ([1/2, -9/10] : List ℚ) := by
  refine ⟨by norm_num, by rfl, ?_⟩
  intro hch
  have h1 : |(-9/10 : ℚ)| ≤ |(1/2 : ℚ)| := (List.chain'_cons.mp hch).1
  rw [abs_of_neg (by norm_num), abs_of_pos (by norm_num)] at h1
  norm_num at h1

/-- C3 as amended: the eigsh path consults the eigensolver exactly once, at
the fixed-seed random starting vector (any oracle pair agreeing there yields
the same result), requesting `k` eigenpairs; and when the solver output is
ascending (the `eigsh` contract), the retained eigenvalue vector — reversed
and with the first entry dropped, before the diffusion-time rescaling — is
sorted in *descending algebraic order* (not descending magnitude, per the
counterexample). -/
theorem claim_C3 (sqrt : ℚ → ℚ) (svd : SvdOracle) (rng : RngOracle)
    (eigsh : EigshOracle) (W : SparseMat) (k : ℕ) (alpha : ℚ) (seed : ℤ)
    (hscc : W.sccCount = 1) :
    (∀ (eigsh' : EigshOracle) (rng' : RngOracle),
      rng' seed (-1) 1 (calculate_normalized_affinity sqrt W).1.n =
        rng seed (-1) 1 (calculate_normalized_affinity sqrt W).1.n →
      eigsh' (calculate_normalized_affinity sqrt W).1 k
          (rng seed (-1) 1 (calculate_normalized_affinity sqrt W).1.n) =
        eigsh (calculate_normalized_affinity sqrt W).1 k
          (rng seed (-1) 1 (calculate_normalized_affinity sqrt W).1.n) →
      calculate_diffusion_map sqrt svd rng' eigsh' W k alpha "eigsh" seed =
        calculate_diffusion_map sqrt svd rng eigsh W k alpha "eigsh" seed) ∧
    (List.Chain' (· ≤ ·)
        (eigsh (calculate_normalized_affinity sqrt W).1 k
          (rng seed (-1) 1 (calculate_normalized_affinity sqrt W).1.n)).1 →
      ∀ res,
        calculate_diffusion_map sqrt svd rng eigsh W k alpha "eigsh" seed =
          .ok res →
        List.Chain' (· ≥ ·) res.2) := by
  constructor
  · intro eigsh' rng' hrng heig
    simp only [calculate_diffusion_map, hscc, ne_eq, not_true_eq_false,
      if_false, reduceIte, hrng, heig]
  · intro hasc res hres
    have key : (calculate_diffusion_map sqrt svd rng eigsh W k alpha "eigsh"
        seed).map (fun p => p.2) =
        .ok ((eigsh (calculate_normalized_affinity sqrt W).1 k
          (rng seed (-1) 1 (calculate_normalized_affinity
            sqrt W).1.n)).1.reverse.drop 1) := by
      simp only [calculate_diffusion_map, hscc, ne_eq, not_true_eq_false,
        if_false, reduceIte]
      rfl
    rw [hres] at key
    simp only [Except.map, Except.ok.injEq] at key
    rw [key, List.drop_one]
    refine List.Chain'.tail ?_
    rw [List.chain'_reverse]
    exact hasc.imp fun a b h => h

/-- Witness for the amended C3 at the triangle instance: the extensionality
conclusion at `eigshW`/`rngW` themselves, and the descending-order conclusion
under the ascending hypothesis `[0, 1]`. -/
theorem claim_C3_witness :
    (calculate_diffusion_map (fun q => q) svdW rngW eigshW tri3 2 (1/2)
        "eigsh" 0 =
      calculate_diffusion_map (fun q => q) svdW rngW eigshW tri3 2 (1/2)
        "eigsh" 0) ∧
    List.Chain' (· ≤ ·)
      ((eigshW (calculate_normalized_affinity (fun q => q) tri3).1 2
        (rngW 0 (-1) 1 (calculate_normalized_affinity
          (fun q => q) tri3).1.n)).1) ∧
    ∀ res,
      calculate_diffusion_map (fun q => q) svdW rngW eigshW tri3 2 (1/2)
        "eigsh" 0 = .ok res →
      List.Chain' (· ≥ ·) res.2 := by
  have h := claim_C3 (fun q => q) svdW rngW eigshW tri3 2 (1/2) 0 (by decide)
  have hasc : List.Chain' (· ≤ ·)
      ((eigshW (calculate_normalized_affinity (fun q => q) tri3).1 2
        (rngW 0 (-1) 1 (calculate_normalized_affinity
          (fun q => q) tri3).1.n)).1) := by
    norm_num [eigshW]
  exact ⟨h.1 eigshW rngW rfl rfl, hasc, h.2 hasc⟩

/-! ### C4: the two-level k-means partition -/

/-- The contract of `sklearn.cluster.KMeans` on a valid fit
(`1 ≤ n_clusters ≤ n_samples`): one label per row, labels in
`[0, n_clusters)`, and no empty cluster (every label is used). -/
def KmContract (km : KmOracle) : Prop :=
  ∀ (X : List (List ℚ)) (ncl nInit : ℕ) (seed : ℤ),
    1 ≤ ncl → ncl ≤ X.length →
    (km X ncl nInit seed).length = X.length ∧
    (∀ l ∈ km X ncl nInit seed, l < ncl) ∧
    ∀ v, v < ncl → v ∈ km X ncl nInit seed

/-- `nc` of coarse cluster `i`: `min(n_clusters2, idx.sum())`. -/
def ncF (K2 : ℕ) (coarse : List ℕ) (i : ℕ) : ℕ :=
  min K2 ((coarse.filter (fun c => c == i)).length)

/-- The running `base_sum` before coarse cluster `i` is processed. -/
def baseF (K2 : ℕ) (coarse : List ℕ) (i : ℕ) : ℕ :=
  ((List.range i).map (ncF K2 coarse)).sum

theorem baseF_succ (K2 : ℕ) (coarse : List ℕ) (i : ℕ) :
    baseF K2 coarse (i + 1) = baseF K2 coarse i + ncF K2 coarse i := by
  simp [baseF, List.range_succ]

theorem baseF_mono (K2 : ℕ) (coarse : List ℕ) {i j : ℕ} (h : i ≤ j) :
    baseF K2 coarse i ≤ baseF K2 coarse j := by
  induction j with
  | zero =>
    have h0 : i = 0 := Nat.le_zero.mp h
    rw [h0]
  | succ j' ih =>
    rcases Nat.lt_or_ge i (j' + 1) with hlt | hge
    · calc baseF K2 coarse i ≤ baseF K2 coarse j' := ih (by omega)
        _ ≤ baseF K2 coarse (j' + 1) := by rw [baseF_succ]; omega
    · have h' : i = j' + 1 := by omega
      rw [h']

theorem selRows_length (X : List (List ℚ)) (coarse : List ℕ) (i : ℕ)
    (h : X.length = coarse.length) :
    (selRows X coarse i).length = (coarse.filter (fun c => c == i)).length := by
  induction X generalizing coarse with
  | nil =>
    cases coarse with
    | nil => simp [selRows]
    | cons c cs => simp at h
  | cons x xs ih =>
    cases coarse with
    | nil => simp at h
    | cons c cs =>
      simp only [List.length_cons, Nat.add_right_cancel_iff] at h
      have hih := ih cs h
      simp only [selRows, List.length_map] at hih ⊢
      by_cases hc : (c == i) = true
      · simp [List.zip_cons_cons, List.filter_cons, hc, hih]
      · simp [List.zip_cons_cons, List.filter_cons, hc, hih]

theorem scatter_length (c : List ℕ) : ∀ (l : List ℕ) (i : ℕ) (v : List ℕ),
    c.length = l.length → (scatter c l i v).length = l.length := by
  induction c with
  | nil => intro l i v h; cases l <;> simp_all [scatter]
  | cons c0 cs ih =>
    intro l i v h
    cases l with
    | nil => simp at h
    | cons l0 ls =>
      simp only [List.length_cons, Nat.add_right_cancel_iff] at h
      by_cases hc : c0 = i
      · cases v with
        | nil => simp [scatter, hc, ih ls i [] h]
        | cons v0 vs => simp [scatter, hc, ih ls i vs h]
      · simp [scatter, hc, ih ls i v h]

theorem scatter_eq_of_not_mem (c : List ℕ) : ∀ (l : List ℕ) (i : ℕ)
    (v : List ℕ), c.length = l.length → i ∉ c → scatter c l i v = l := by
  induction c with
  | nil =>
    intro l i v h _
    cases l with
    | nil => rfl
    | cons l0 ls => simp at h
  | cons c0 cs ih =>
    intro l i v h hni
    cases l with
    | nil => rfl
    | cons l0 ls =>
      simp only [List.length_cons, Nat.add_right_cancel_iff] at h
      have hc : ¬ c0 = i := fun hh => hni (by simp [hh])
      simp [scatter, hc, ih ls i v h (fun hh => hni (by simp [hh]))]

theorem scatter_getD_ne (c : List ℕ) : ∀ (l : List ℕ) (i : ℕ) (v : List ℕ)
    (r : ℕ), c.length = l.length → r < c.length → c.getD r 0 ≠ i →
    (scatter c l i v).getD r 0 = l.getD r 0 := by
  induction c with
  | nil => intro l i v r _ hr _; simp at hr
  | cons c0 cs ih =>
    intro l i v r h hr hne
    cases l with
    | nil => simp at h
    | cons l0 ls =>
      simp only [List.length_cons, Nat.add_right_cancel_iff] at h
      cases r with
      | zero =>
        have hc : ¬ c0 = i := by simpa using hne
        simp [scatter, hc]
      | succ r' =>
        have hr' : r' < cs.length := by simp at hr; omega
        have hne' : cs.getD r' 0 ≠ i := by simpa using hne
        by_cases hc : c0 = i
        · cases v with
          | nil =>
            simp only [scatter, hc, eq_self_iff_true, if_true,
              List.getD_cons_succ]
            exact ih ls i [] r' h hr' hne'
          | cons v0 vs =>
            simp only [scatter, hc, eq_self_iff_true, if_true,
              List.getD_cons_succ]
            exact ih ls i vs r' h hr' hne'
        · simp only [scatter, hc, if_false, List.getD_cons_succ]
          exact ih ls i v r' h hr' hne'

theorem scatter_getD_mem (c : List ℕ) : ∀ (l : List ℕ) (i : ℕ) (v : List ℕ)
    (r : ℕ), c.length = l.length → r < c.length → c.getD r 0 = i →
    (c.filter (fun x => x == i)).length ≤ v.length →
    (scatter c l i v).getD r 0 ∈ v := by
  induction c with
  | nil => intro l i v r _ hr _ _; simp at hr
  | cons c0 cs ih =>
    intro l i v r h hr hci hcnt
    cases l with
    | nil => simp at h
    | cons l0 ls =>
      simp only [List.length_cons, Nat.add_right_cancel_iff] at h
      cases r with
      | zero =>
        have hc : c0 = i := by simpa using hci
        have hpos : 1 ≤ (((c0 :: cs).filter (fun x => x == i)).length) := by
          simp [List.filter_cons, hc]
        cases v with
        | nil => simp at hcnt; omega
        | cons v0 vs => simp [scatter, hc]
      | succ r' =>
        have hr' : r' < cs.length := by simp at hr; omega
        have hci' : cs.getD r' 0 = i := by simpa using hci
        by_cases hc : c0 = i
        · have hcnt0 : ((c0 :: cs).filter (fun x => x == i)).length =
              (cs.filter (fun x => x == i)).length + 1 := by
            simp [List.filter_cons, hc]
          cases v with
          | nil => rw [hcnt0] at hcnt; simp at hcnt
          | cons v0 vs =>
            have : (cs.filter (fun x => x == i)).length ≤ vs.length := by
              rw [hcnt0] at hcnt
              simpa using hcnt
            have hm := ih ls i vs r' h hr' hci' this
            simp only [scatter, hc, if_pos, List.getD_cons_succ]
            exact List.mem_cons_of_mem _ hm
        · have hcnt0 : ((c0 :: cs).filter (fun x => x == i)).length =
              (cs.filter (fun x => x == i)).length := by
            simp [List.filter_cons, hc]
          rw [hcnt0] at hcnt
          have hm := ih ls i v r' h hr' hci' hcnt
          simpa [scatter, hc] using hm

theorem scatter_coverage (c : List ℕ) : ∀ (l : List ℕ) (i : ℕ) (v : List ℕ),
    c.length = l.length → v.length ≤ (c.filter (fun x => x == i)).length →
    ∀ x ∈ v, ∃ r, r < c.length ∧ c.getD r 0 = i ∧
      (scatter c l i v).getD r 0 = x := by
  induction c with
  | nil =>
    intro l i v _ hcnt x hx
    simp at hcnt
    subst hcnt
    simp at hx
  | cons c0 cs ih =>
    intro l i v h hcnt x hx
    cases l with
    | nil => simp at h
    | cons l0 ls =>
      simp only [List.length_cons, Nat.add_right_cancel_iff] at h
      by_cases hc : c0 = i
      · cases v with
        | nil => simp at hx
        | cons v0 vs =>
          rcases List.mem_cons.mp hx with rfl | hxs
          · exact ⟨0, by simp, by simp [hc], by simp [scatter, hc]⟩
          · have hcnt' : vs.length ≤ (cs.filter (fun x => x == i)).length := by
              simp only [List.filter_cons, hc, beq_self_eq_true, if_pos,
                List.length_cons] at hcnt
              simp at hcnt ⊢
              omega
            obtain ⟨r, hr, hcr, hval⟩ := ih ls i vs h hcnt' x hxs
            exact ⟨r + 1, by simp; omega, by simpa using hcr,
              by simpa [scatter, hc] using hval⟩
      · have hcnt' : v.length ≤ (cs.filter (fun x => x == i)).length := by
          simpa [List.filter_cons, hc] using hcnt
        obtain ⟨r, hr, hcr, hval⟩ := ih ls i v h hcnt' x hx
        exact ⟨r + 1, by simp; omega, by simpa using hcr,
          by simpa [scatter, hc] using hval⟩

theorem kmLoop_append (km : KmOracle) (X : List (List ℚ)) (coarse : List ℕ)
    (K2 : ℕ) (seed : ℤ) (l1 : List ℕ) :
    ∀ (l2 : List ℕ) (st : List ℕ × ℕ),
    kmLoop km X coarse K2 seed (l1 ++ l2) st =
      kmLoop km X coarse K2 seed l2 (kmLoop km X coarse K2 seed l1 st) := by
  induction l1 with
  | nil => intro l2 st; rfl
  | cons i is ih =>
    intro l2 st
    obtain ⟨labels, base⟩ := st
    simp only [List.cons_append, kmLoop]
    exact ih l2 _

theorem kmLoop_step (km : KmOracle) (X : List (List ℚ)) (coarse : List ℕ)
    (K2 : ℕ) (seed : ℤ) (m : ℕ) (labels : List ℕ) (base : ℕ) :
    kmLoop km X coarse K2 seed [m] (labels, base) =
      (scatter coarse labels m ((km (selRows X coarse m)
          (min K2 ((coarse.filter (fun c => c == m)).length)) 1 seed).map
        (fun l => base + l)),
       base + min K2 ((coarse.filter (fun c => c == m)).length)) := rfl

/-- The loop invariant of `partition_cells_by_kmeans`, after processing
coarse clusters `0, …, m−1` starting from `labels = coarse`, `base_sum = 0`:
the accumulator equals `baseF m`; rows of processed clusters carry a label in
their cluster's sub-range `[baseF i, baseF i + ncF i)`; rows of unprocessed
clusters still carry their coarse label; and every value of every processed
sub-range is attained at a row of that cluster. -/
theorem kmLoop_spec (km : KmOracle) (X : List (List ℚ)) (coarse : List ℕ)
    (K2 : ℕ) (seed : ℤ) (hcon : KmContract km) (hK2 : 1 ≤ K2)
    (hXc : X.length = coarse.length) :
    ∀ m : ℕ,
      (kmLoop km X coarse K2 seed (List.range m) (coarse, 0)).2 =
        baseF K2 coarse m ∧
      (kmLoop km X coarse K2 seed (List.range m) (coarse, 0)).1.length =
        coarse.length ∧
      (∀ r, r < coarse.length →
        (coarse.getD r 0 < m →
          baseF K2 coarse (coarse.getD r 0) ≤
            (kmLoop km X coarse K2 seed (List.range m)
              (coarse, 0)).1.getD r 0 ∧
          (kmLoop km X coarse K2 seed (List.range m) (coarse, 0)).1.getD r 0 <
            baseF K2 coarse (coarse.getD r 0) +
              ncF K2 coarse (coarse.getD r 0)) ∧
        (m ≤ coarse.getD r 0 →
          (kmLoop km X coarse K2 seed (List.range m) (coarse, 0)).1.getD r 0 =
            coarse.getD r 0)) ∧
      ∀ i, i < m → ∀ v, baseF K2 coarse i ≤ v →
        v < baseF K2 coarse i + ncF K2 coarse i →
        ∃ r, r < coarse.length ∧ coarse.getD r 0 = i ∧
          (kmLoop km X coarse K2 seed (List.range m)
            (coarse, 0)).1.getD r 0 = v := by
  intro m
  induction m with
  | zero =>
    refine ⟨rfl, rfl, ?_, ?_⟩
    · intro r hr
      exact ⟨fun h => absurd h (by omega), fun _ => rfl⟩
    · intro i hi
      exact absurd hi (Nat.not_lt_zero i)
  | succ m ih =>
    rcases hpair : kmLoop km X coarse K2 seed (List.range m) (coarse, 0) with
      ⟨labelsM, baseM⟩
    rw [hpair] at ih
    obtain ⟨ihBase, ihLen, ihPt, ihCov⟩ := ih
    simp only at ihBase ihLen ihPt ihCov
    have hrw : kmLoop km X coarse K2 seed (List.range (m + 1)) (coarse, 0) =
        (scatter coarse labelsM m ((km (selRows X coarse m)
            (min K2 ((coarse.filter (fun c => c == m)).length)) 1 seed).map
          (fun l => baseM + l)),
         baseM + min K2 ((coarse.filter (fun c => c == m)).length)) := by
      rw [List.range_succ, kmLoop_append, hpair, kmLoop_step]
    rw [hrw]
    have hlenCL : coarse.length = labelsM.length := ihLen.symm
    rcases Nat.eq_zero_or_pos ((coarse.filter (fun c => c == m)).length) with
      hcnt0 | hcntpos
    · -- coarse cluster m is empty: nothing is written, `nc = 0`
      have hnm : m ∉ coarse := by
        intro hmem
        have : m ∈ coarse.filter (fun c => c == m) :=
          List.mem_filter.mpr ⟨hmem, by simp⟩
        rw [List.length_eq_zero.mp hcnt0] at this
        simp at this
      have hsc : scatter coarse labelsM m ((km (selRows X coarse m)
          (min K2 ((coarse.filter (fun c => c == m)).length)) 1 seed).map
            (fun l => baseM + l)) = labelsM :=
        scatter_eq_of_not_mem coarse labelsM m _ hlenCL hnm
      refine ⟨?_, ?_, ?_, ?_⟩
      · simp only [hcnt0, Nat.min_zero, Nat.add_zero, ihBase, baseF_succ,
          ncF, hcnt0]
      · simp only [hsc]; exact ihLen
      · intro r hr
        constructor
        · intro hlt
          rcases Nat.lt_or_ge (coarse.getD r 0) m with hm | hm
          · simp only [hsc]; exact (ihPt r hr).1 hm
          · exfalso
            have hEq : coarse.getD r 0 = m := by omega
            apply hnm
            rw [← hEq, getD_of_lt _ _ _ hr]
            exact List.getElem_mem hr
        · intro hge
          simp only [hsc]
          exact (ihPt r hr).2 (by omega)
      · intro i hi v hv1 hv2
        rcases Nat.lt_or_ge i m with hm | hm
        · obtain ⟨r, hr, hcr, hval⟩ := ihCov i hm v hv1 hv2
          exact ⟨r, hr, hcr, by simp only [hsc]; exact hval⟩
        · exfalso
          have hEq : i = m := by omega
          rw [hEq] at hv1 hv2
          rw [ncF, hcnt0] at hv2
          simp at hv2
          omega
    · -- coarse cluster m is non-empty: the inner fit is valid
      have hsel : (selRows X coarse m).length =
          (coarse.filter (fun c => c == m)).length :=
        selRows_length X coarse m hXc
      have hnc1 : 1 ≤ min K2 ((coarse.filter (fun c => c == m)).length) :=
        le_min hK2 hcntpos
      have hncle : min K2 ((coarse.filter (fun c => c == m)).length) ≤
          (selRows X coarse m).length := by
        rw [hsel]; exact min_le_right _ _
      obtain ⟨hflen, hflt, hfcov⟩ := hcon (selRows X coarse m)
        (min K2 ((coarse.filter (fun c => c == m)).length)) 1 seed hnc1 hncle
      have hvlen : ((km (selRows X coarse m)
          (min K2 ((coarse.filter (fun c => c == m)).length)) 1 seed).map
            (fun l => baseM + l)).length =
          (coarse.filter (fun c => c == m)).length := by
        rw [List.length_map, hflen, hsel]
      refine ⟨?_, ?_, ?_, ?_⟩
      · simp only [ihBase, baseF_succ, ncF]
      · rw [scatter_length coarse labelsM m _ hlenCL]; exact ihLen
      · intro r hr
        constructor
        · intro hlt
          rcases Nat.lt_or_ge (coarse.getD r 0) m with hm | hm
          · rw [scatter_getD_ne coarse labelsM m _ r hlenCL hr (by omega)]
            exact (ihPt r hr).1 hm
          · have hEq : coarse.getD r 0 = m := by omega
            have hmem := scatter_getD_mem coarse labelsM m _ r hlenCL hr hEq
              (by rw [hvlen])
            simp only [List.mem_map] at hmem
            obtain ⟨l, hl, hlv⟩ := hmem
            have hlt' := hflt l hl
            rw [hEq, ← hlv, ihBase]
            constructor
            · omega
            · have : ncF K2 coarse m =
                  min K2 ((coarse.filter (fun c => c == m)).length) := rfl
              omega
        · intro hge
          rw [scatter_getD_ne coarse labelsM m _ r hlenCL hr (by omega)]
          exact (ihPt r hr).2 (by omega)
      · intro i hi v hv1 hv2
        rcases Nat.lt_or_ge i m with hm | hm
        · obtain ⟨r, hr, hcr, hval⟩ := ihCov i hm v hv1 hv2
          refine ⟨r, hr, hcr, ?_⟩
          rw [scatter_getD_ne coarse labelsM m _ r hlenCL hr (by omega)]
          exact hval
        · have hEq : i = m := by omega
          rw [hEq] at hv1 hv2 ⊢
          have hncf : ncF K2 coarse m =
              min K2 ((coarse.filter (fun c => c == m)).length) := rfl
          rw [hncf] at hv2
          have hvfine : v - baseF K2 coarse m <
              min K2 ((coarse.filter (fun c => c == m)).length) := by omega
          have hvmem : v ∈ (km (selRows X coarse m)
              (min K2 ((coarse.filter (fun c => c == m)).length)) 1 seed).map
                (fun l => baseM + l) := by
            refine List.mem_map.mpr ⟨v - baseF K2 coarse m,
              hfcov _ hvfine, ?_⟩
            rw [ihBase]
            omega
          obtain ⟨r, hr, hcr, hval⟩ := scatter_coverage coarse labelsM m _
            hlenCL (by rw [hvlen]) v hvmem
          exact ⟨r, hr, hcr, hval⟩

/-- Any value below a cumulative sum of block sizes falls in exactly one
block. -/
theorem sum_decompose (f : ℕ → ℕ) : ∀ K v : ℕ,
    v < ((List.range K).map f).sum →
    ∃ i, i < K ∧ ((List.range i).map f).sum ≤ v ∧
      v < ((List.range i).map f).sum + f i := by
  intro K
  induction K with
  | zero => intro v hv; simp at hv
  | succ K ih =>
    intro v hv
    rcases Nat.lt_or_ge v (((List.range K).map f).sum) with h | h
    · obtain ⟨i, hi, h1, h2⟩ := ih v h
      exact ⟨i, by omega, h1, h2⟩
    · refine ⟨K, by omega, h, ?_⟩
      rw [List.range_succ, List.map_append, List.sum_append] at hv
      simpa using hv

/-- C4: under the k-means contract and `1 ≤ K1 ≤ N`, `1 ≤ K2`, the label
vector of `partition_cells_by_kmeans` has one label per row; each row's label
lies in the sub-range `[baseF i, baseF i + ncF i)` of its coarse cluster `i`
(offsets accumulating in increasing coarse-cluster order); and the labels
cover exactly the gapless range `[0, Σ_{i<K1} min(K2, |cluster i|))`. -/
theorem claim_C4 (km : KmOracle) (data : AnnData) (rep : String)
    (X : List (List ℚ)) (nj : ℤ) (K1 K2 nInit : ℕ) (seed : ℤ)
    (hX : lookupA data.obsm ("X_" ++ rep) = some X) (hcon : KmContract km)
    (hK1 : 1 ≤ K1) (hK1N : K1 ≤ X.length) (hK2 : 1 ≤ K2) :
    (partition_cells_by_kmeans km data rep nj K1 K2 nInit seed).length =
      X.length ∧
    (∀ r, r < X.length →
      (km X K1 nInit seed).getD r 0 < K1 ∧
      baseF K2 (km X K1 nInit seed) ((km X K1 nInit seed).getD r 0) ≤
        (partition_cells_by_kmeans km data rep nj K1 K2 nInit seed).getD r 0 ∧
      (partition_cells_by_kmeans km data rep nj K1 K2 nInit seed).getD r 0 <
        baseF K2 (km X K1 nInit seed) ((km X K1 nInit seed).getD r 0) +
          ncF K2 (km X K1 nInit seed) ((km X K1 nInit seed).getD r 0)) ∧
    (∀ v ∈ partition_cells_by_kmeans km data rep nj K1 K2 nInit seed,
      v < baseF K2 (km X K1 nInit seed) K1) ∧
    ∀ v, v < baseF K2 (km X K1 nInit seed) K1 →
      v ∈ partition_cells_by_kmeans km data rep nj K1 K2 nInit seed := by
  obtain ⟨hclen, hclt, hccov⟩ := hcon X K1 nInit seed hK1 hK1N
  have hrw : partition_cells_by_kmeans km data rep nj K1 K2 nInit seed =
      (kmLoop km X (km X K1 nInit seed) K2 seed (List.range K1)
        (km X K1 nInit seed, 0)).1 := by
    simp only [partition_cells_by_kmeans, hX]
    rfl
  have hXc : X.length = (km X K1 nInit seed).length := hclen.symm
  obtain ⟨sBase, sLen, sPt, sCov⟩ :=
    kmLoop_spec km X (km X K1 nInit seed) K2 seed hcon hK2 hXc K1
  have hres_len : (partition_cells_by_kmeans km data rep nj K1 K2 nInit
      seed).length = X.length := by
    rw [hrw, sLen, hclen]
  have hpt : ∀ r, r < X.length →
      (km X K1 nInit seed).getD r 0 < K1 ∧
      baseF K2 (km X K1 nInit seed) ((km X K1 nInit seed).getD r 0) ≤
        (partition_cells_by_kmeans km data rep nj K1 K2 nInit seed).getD r 0 ∧
      (partition_cells_by_kmeans km data rep nj K1 K2 nInit seed).getD r 0 <
        baseF K2 (km X K1 nInit seed) ((km X K1 nInit seed).getD r 0) +
          ncF K2 (km X K1 nInit seed) ((km X K1 nInit seed).getD r 0) := by
    intro r hr
    have hr' : r < (km X K1 nInit seed).length := by omega
    have hcr : (km X K1 nInit seed).getD r 0 < K1 := by
      rw [getD_of_lt _ _ _ hr']
      exact hclt _ (List.getElem_mem hr')
    have := (sPt r hr').1 hcr
    rw [hrw]
    exact ⟨hcr, this.1, this.2⟩
  refine ⟨hres_len, hpt, ?_, ?_⟩
  · intro v hv
    obtain ⟨r, hrl, hrv⟩ := List.mem_iff_getElem.mp hv
    have hrX : r < X.length := by rw [← hres_len]; exact hrl
    have hgd : (partition_cells_by_kmeans km data rep nj K1 K2 nInit
        seed).getD r 0 = v := by
      rw [getD_of_lt _ _ _ hrl, hrv]
    obtain ⟨hcr, _, hub⟩ := hpt r hrX
    have hstep : baseF K2 (km X K1 nInit seed)
          ((km X K1 nInit seed).getD r 0) +
          ncF K2 (km X K1 nInit seed) ((km X K1 nInit seed).getD r 0) ≤
        baseF K2 (km X K1 nInit seed) K1 := by
      rw [← baseF_succ]
      exact baseF_mono _ _ (by omega)
    omega
  · intro v hv
    obtain ⟨i, hiK, h1, h2⟩ := sum_decompose (ncF K2 (km X K1 nInit seed)) K1
      v hv
    obtain ⟨r, hrl, hcr, hval⟩ := sCov i hiK v h1 h2
    rw [← hrw] at hval
    have hrres : r < (partition_cells_by_kmeans km data rep nj K1 K2 nInit
        seed).length := by
      rw [hres_len]
      omega
    rw [getD_of_lt _ _ _ hrres] at hval
    rw [← hval]
    exact List.getElem_mem hrres

/-- The round-robin k-means stand-in `km0` satisfies the k-means contract. -/
theorem km0_contract : KmContract km0 := by
  intro X ncl nInit seed h1 hle
  refine ⟨by simp [km0], ?_, ?_⟩
  · intro l hl
    simp only [km0, List.mem_map, List.mem_range] at hl
    obtain ⟨j, _, rfl⟩ := hl
    exact Nat.mod_lt _ (by omega)
  · intro v hv
    simp only [km0, List.mem_map, List.mem_range]
    exact ⟨v, by omega, Nat.mod_eq_of_lt (by omega)⟩

/-- Eight cells with 1-D PCA coordinates. -/
def dC4 : AnnData :=
  { obs_names := []
    obs := []
    obsm := [("X_pca", [[0], [1], [2], [3], [4], [5], [6], [7]])]
    uns := [] }

/-- Witness for C4: the partition of 8 rows into `K1 = 3` coarse and at most
`K2 = 2` fine clusters under the round-robin oracle. -/
theorem claim_C4_witness :
    (lookupA dC4.obsm ("X_" ++ "pca") =
        some [[0], [1], [2], [3], [4], [5], [6], [7]] ∧
      KmContract km0 ∧ 1 ≤ 3 ∧
      3 ≤ ([[0], [1], [2], [3], [4], [5], [6], [7]] :
        List (List ℚ)).length ∧ 1 ≤ 2) ∧
    ((partition_cells_by_kmeans km0 dC4 "pca" (-1) 3 2 10 0).length =
      ([[0], [1], [2], [3], [4], [5], [6], [7]] : List (List ℚ)).length ∧
    (∀ r, r < ([[0], [1], [2], [3], [4], [5], [6], [7]] :
        List (List ℚ)).length →
      (km0 [[0], [1], [2], [3], [4], [5], [6], [7]] 3 10 0).getD r 0 < 3 ∧
      baseF 2 (km0 [[0], [1], [2], [3], [4], [5], [6], [7]] 3 10 0)
          ((km0 [[0], [1], [2], [3], [4], [5], [6], [7]] 3 10 0).getD r 0) ≤
        (partition_cells_by_kmeans km0 dC4 "pca" (-1) 3 2 10 0).getD r 0 ∧
      (partition_cells_by_kmeans km0 dC4 "pca" (-1) 3 2 10 0).getD r 0 <
        baseF 2 (km0 [[0], [1], [2], [3], [4], [5], [6], [7]] 3 10 0)
            ((km0 [[0], [1], [2], [3], [4], [5], [6], [7]] 3 10 0).getD r 0) +
          ncF 2 (km0 [[0], [1], [2], [3], [4], [5], [6], [7]] 3 10 0)
            ((km0 [[0], [1], [2], [3], [4], [5], [6], [7]] 3 10 0).getD r 0)) ∧
    (∀ v ∈ partition_cells_by_kmeans km0 dC4 "pca" (-1) 3 2 10 0,
      v < baseF 2 (km0 [[0], [1], [2], [3], [4], [5], [6], [7]] 3 10 0) 3) ∧
    ∀ v, v < baseF 2 (km0 [[0], [1], [2], [3], [4], [5], [6], [7]] 3 10 0) 3 →
      v ∈ partition_cells_by_kmeans km0 dC4 "pca" (-1) 3 2 10 0) :=
  ⟨⟨rfl, km0_contract, by omega, by simp, by omega⟩,
   claim_C4 km0 dC4 "pca" [[0], [1], [2], [3], [4], [5], [6], [7]] (-1) 3 2 10
     0 rfl km0_contract (by omega) (by simp) (by omega)⟩

end Pegasus
